import Mathlib

/-!
# Stable partitioning in constant extra space (spart.hpp)

A shallow embedding of the algorithms of `spart.hpp`.

* A sequence is a `List α`; an iterator is a `Nat` offset from the beginning of
  the sequence; a call that mutates the sequence returns the new sequence.
* `Difference` values are natural numbers (they are lengths and offsets of an
  existing range).  The block-width loop is embedded a second time on the
  integers, with every arithmetic result reduced to an index type of `w` bits
  (`wrap`), to show that no expression it evaluates leaves `[0, n]`
  (`chunk_limit`, `width_loop_inner`, `width_loop_outer`); `chunk_limit_nat`
  relates the two embeddings.
* A loop whose number of iterations is not structurally evident carries a fuel
  argument and returns `none` when the fuel runs out; in the functions of
  `spart.hpp`, reading an element at a position outside the sequence, or a
  cursor that was never assigned, also gives `none`.  Every top level function
  fixes its own fuel from the length of the range, and the theorems show that
  the result is `some`.
* The algorithms of the standard library used by the source (`std::reverse`,
  `std::rotate`, `std::find_if`, `std::find_if_not`, `std::partition_point`)
  are embedded by their specified behaviour.
-/

namespace Spart

variable {α : Type}

/-! ## Reference result -/

/-- The reference stable partition (the oracle `std::stable_partition` of the
test): the elements satisfying `p` in their original order, followed by the
elements failing `p` in their original order. -/
def reference_stable_partition (p : α → Bool) (xs : List α) : List α :=
  xs.filter p ++ xs.filter (fun x => !p x)

/-- The boundary of the reference stable partition: the number of elements
satisfying `p`. -/
def reference_boundary (p : α → Bool) (xs : List α) : Nat :=
  xs.countP p

/-! ## Standard library algorithms -/

/-- `std::reverse(first, last)`: reverses the block `[first, last)`. -/
def reverse (xs : List α) (first last : Nat) : List α :=
  xs.take first ++ ((xs.drop first).take (last - first)).reverse ++ xs.drop last

/-- `std::rotate(first, middle, last)`: left rotation, the block
`[middle, last)` is moved in front of the block `[first, middle)`. -/
def rotate (xs : List α) (first middle last : Nat) : List α :=
  xs.take first ++ ((xs.drop middle).take (last - middle) ++
    (xs.drop first).take (middle - first)) ++ xs.drop last

/-- Loop of `std::find_if_not`; `k` is the distance from `first` to `last`.
A position outside the sequence ends the search. -/
def find_if_not_loop (p : α → Bool) (xs : List α) : Nat → Nat → Nat
  | 0, first => first
  | k + 1, first =>
    match xs[first]? with
    | some x => if p x then find_if_not_loop p xs k (first + 1) else first
    | none => first

/-- `std::find_if_not(first, last, pred)`: the first position in
`[first, last)` whose element fails `pred`, or `last`. -/
def find_if_not (p : α → Bool) (xs : List α) (first last : Nat) : Nat :=
  find_if_not_loop p xs (last - first) first

/-- Loop of `std::find_if`; `k` is the distance from `first` to `last`.
A position outside the sequence ends the search. -/
def find_if_loop (p : α → Bool) (xs : List α) : Nat → Nat → Nat
  | 0, first => first
  | k + 1, first =>
    match xs[first]? with
    | some x => if p x then first else find_if_loop p xs k (first + 1)
    | none => first

/-- `std::find_if(first, last, pred)`: the first position in `[first, last)`
whose element satisfies `pred`, or `last`. -/
def find_if (p : α → Bool) (xs : List α) (first last : Nat) : Nat :=
  find_if_loop p xs (last - first) first

/-! ## The two primitives of spart.hpp -/

/-- `rotate_by_reverse(first, middle, last)`: three reversals, guarded by
`first != middle && middle != last`. -/
def rotate_by_reverse (xs : List α) (first middle last : Nat) : List α :=
  if first ≠ middle ∧ middle ≠ last then
    reverse (reverse (reverse xs first middle) middle last) first last
  else
    xs

/-- The `while (n > 0)` loop of `find_partition_point_n`, with fuel.  The
sequence is only read. -/
def find_partition_point_n_loop (p : α → Bool) (xs : List α) :
    Nat → Nat → Nat → Option Nat
  | 0, first, n => if n > 0 then none else some first
  | fuel + 1, first, n =>
    if n > 0 then
      let half := n / 2
      let middle := first + half
      match xs[middle]? with
      | none => none
      | some x =>
        if p x then
          find_partition_point_n_loop p xs fuel (middle + 1) (n - (half + 1))
        else
          find_partition_point_n_loop p xs fuel first half
    else
      some first

/-- `find_partition_point_n(first, n, pred)`; `n` iterations always suffice. -/
def find_partition_point_n (p : α → Bool) (xs : List α) (first n : Nat) : Option Nat :=
  find_partition_point_n_loop p xs n first n

/-- `find_partition_point(first, last, pred)`. -/
def find_partition_point (p : α → Bool) (xs : List α) (first last : Nat) : Option Nat :=
  find_partition_point_n p xs first (last - first)

/-- `std::partition_point(first, last, pred)`: binary search for the first
element failing `pred`, the search that `find_partition_point` spells out. -/
def partition_point (p : α → Bool) (xs : List α) (first last : Nat) : Option Nat :=
  find_partition_point p xs first last

/-! ## Recursive partition -/

/-- `stable_partition_recursive_n(first, n, pred)` with fuel for the recursion
depth; returns the boundary and the new sequence. -/
def stable_partition_recursive_n (p : α → Bool) :
    Nat → List α → Nat → Nat → Option (Nat × List α)
  | 0, _, _, _ => none
  | fuel + 1, xs, first, n =>
    if n = 0 then
      some (first, xs)
    else if n = 1 then
      match xs[first]? with
      | none => none
      | some x => some (if p x then first + 1 else first, xs)
    else
      match stable_partition_recursive_n p fuel xs first (n / 2) with
      | none => none
      | some (l, xs1) =>
        let m := first + n / 2
        match stable_partition_recursive_n p fuel xs1 m (n - n / 2) with
        | none => none
        | some (r, xs2) =>
          some (l + (r - m), if l ≠ m ∧ m ≠ r then rotate xs2 l m r else xs2)

/-- `stable_partition_recursive(first, last, pred)` on the whole sequence. -/
def stable_partition_recursive (p : α → Bool) (xs : List α) : Option (Nat × List α) :=
  stable_partition_recursive_n p (xs.length + 1) xs 0 xs.length

/-! ## Bottom-up iterative partition -/

/-- The inner `for (i = 0, limit = 0; i < n; i += limit)` loop of
`stable_partition_bottomup_n` for one block width.  The state is the sequence,
the cursor `next`, the counter `i` and the cursors `(l, m, r)`, which are
`none` while unassigned. -/
def bottomup_pass (p : α → Bool) (n width : Nat) :
    Nat → List α → Nat → Nat → Option (Nat × Nat × Nat) →
      Option (List α × Option (Nat × Nat × Nat))
  | 0, xs, _, i, lmr => if i < n then none else some (xs, lmr)
  | fuel + 1, xs, next, i, lmr =>
    if i < n then
      let limit := if width > n - i then n - i
        else if width > n - i - width then n - i else 2 * width
      if limit > width then
        let m := next + width
        let l := find_if_not p xs next m
        let next1 := m + (limit - width)
        let r := find_if_not p xs m next1
        bottomup_pass p n width fuel (if l ≠ m ∧ m ≠ r then rotate xs l m r else xs)
          next1 (i + limit) (some (l, m, r))
      else
        bottomup_pass p n width fuel xs next (i + limit) lmr
    else
      some (xs, lmr)

/-- The outer `for (;;)` loop of `stable_partition_bottomup_n`: one pass, then
`break` when `width >= n - width`, else `width += width`. -/
def bottomup_loop (p : α → Bool) (first n : Nat) :
    Nat → List α → Nat → Option (Nat × Nat × Nat) →
      Option (List α × Option (Nat × Nat × Nat))
  | 0, _, _, _ => none
  | fuel + 1, xs, width, lmr =>
    match bottomup_pass p n width n xs first 0 lmr with
    | none => none
    | some (xs1, lmr1) =>
      if width ≥ n - width then some (xs1, lmr1)
      else bottomup_loop p first n fuel xs1 (width + width) lmr1

/-- `stable_partition_bottomup_n(first, n, pred)`; returns the boundary
`l + (r - m)` and the new sequence.  The outer loop runs at most `n` passes;
a return that would read `l`, `m`, `r` unassigned gives `none`. -/
def stable_partition_bottomup_n (p : α → Bool) (xs : List α) (first n : Nat) :
    Option (Nat × List α) :=
  if n = 0 then
    some (first, xs)
  else if n = 1 then
    match xs[first]? with
    | none => none
    | some x => some (if p x then first + 1 else first, xs)
  else
    match bottomup_loop p first n n xs 1 none with
    | some (xs1, some (l, m, r)) => some (l + (r - m), xs1)
    | _ => none

/-- `stable_partition_bottomup(first, last, pred)` on the whole sequence. -/
def stable_partition_bottomup (p : α → Bool) (xs : List α) : Option (Nat × List α) :=
  stable_partition_bottomup_n p xs 0 xs.length

/-! ## Binary-search bottom-up partition -/

/-- The inner `for` loop of `stable_partition_bsearch_n` for one block width:
as `bottomup_pass`, with `std::partition_point` for the two searches. -/
def bsearch_pass (p : α → Bool) (n width : Nat) :
    Nat → List α → Nat → Nat → Option (Nat × Nat × Nat) →
      Option (List α × Option (Nat × Nat × Nat))
  | 0, xs, _, i, lmr => if i < n then none else some (xs, lmr)
  | fuel + 1, xs, next, i, lmr =>
    if i < n then
      let limit := if width > n - i then n - i
        else if width > n - i - width then n - i else 2 * width
      if limit > width then
        let m := next + width
        match partition_point p xs next m with
        | none => none
        | some l =>
          let next1 := m + (limit - width)
          match partition_point p xs m next1 with
          | none => none
          | some r =>
            bsearch_pass p n width fuel (if l ≠ m ∧ m ≠ r then rotate xs l m r else xs)
              next1 (i + limit) (some (l, m, r))
      else
        bsearch_pass p n width fuel xs next (i + limit) lmr
    else
      some (xs, lmr)

/-- The outer `for (;;)` loop of `stable_partition_bsearch_n`. -/
def bsearch_loop (p : α → Bool) (first n : Nat) :
    Nat → List α → Nat → Option (Nat × Nat × Nat) →
      Option (List α × Option (Nat × Nat × Nat))
  | 0, _, _, _ => none
  | fuel + 1, xs, width, lmr =>
    match bsearch_pass p n width n xs first 0 lmr with
    | none => none
    | some (xs1, lmr1) =>
      if width ≥ n - width then some (xs1, lmr1)
      else bsearch_loop p first n fuel xs1 (width + width) lmr1

/-- `stable_partition_bsearch_n(first, n, pred)`; as
`stable_partition_bottomup_n`, with the passes of `bsearch_pass`. -/
def stable_partition_bsearch_n (p : α → Bool) (xs : List α) (first n : Nat) :
    Option (Nat × List α) :=
  if n = 0 then
    some (first, xs)
  else if n = 1 then
    match xs[first]? with
    | none => none
    | some x => some (if p x then first + 1 else first, xs)
  else
    match bsearch_loop p first n n xs 1 none with
    | some (xs1, some (l, m, r)) => some (l + (r - m), xs1)
    | _ => none

/-- `stable_partition_bsearch(first, last, pred)` on the whole sequence. -/
def stable_partition_bsearch (p : α → Bool) (xs : List α) : Option (Nat × List α) :=
  stable_partition_bsearch_n p xs 0 xs.length

/-! ## Natural-runs partition -/

/-- The inner `do ... while (next != last)` loop of
`stable_partition_natural_n`: one left-to-right sweep.  Returns the sequence,
the cursors `l`, `m`, `r` of the last step and the flag `change`. -/
def natural_sweep (p : α → Bool) (first last : Nat) :
    Nat → List α → Nat → Bool → Option (List α × Nat × Nat × Nat × Bool)
  | 0, _, _, _ => none
  | fuel + 1, xs, next, change =>
    let l := find_if_not p xs (if next = first then next else next + 1) last
    let m := if l = last then last else find_if p xs (l + 1) last
    let r := if m = last then last else find_if_not p xs (m + 1) last
    let next1 := if r = last then last else find_if p xs (r + 1) last
    let xs1 := if m ≠ r then rotate xs l m r else xs
    let change1 := if m ≠ r then true else change
    if next1 ≠ last then natural_sweep p first last fuel xs1 next1 change1
    else some (xs1, l, m, r, change1)

/-- The outer `do ... while (change)` loop of `stable_partition_natural_n`. -/
def natural_loop (p : α → Bool) (first n : Nat) :
    Nat → List α → Option (Nat × List α)
  | 0, _ => none
  | fuel + 1, xs =>
    match natural_sweep p first (first + n) (n + 1) xs first false with
    | none => none
    | some (xs1, l, m, r, change) =>
      if change then natural_loop p first n fuel xs1
      else some (l + (r - m), xs1)

/-- `stable_partition_natural_n(first, n, pred)`.  The number of sweeps is
bounded by the number of pairs of positions, which fixes the fuel. -/
def stable_partition_natural_n (p : α → Bool) (xs : List α) (first n : Nat) :
    Option (Nat × List α) :=
  if n = 0 then
    some (first, xs)
  else if n = 1 then
    match xs[first]? with
    | none => none
    | some x => some (if p x then first + 1 else first, xs)
  else
    natural_loop p first n (n * n + 1) xs

/-- `stable_partition_natural(first, last, pred)` on the whole sequence. -/
def stable_partition_natural (p : α → Bool) (xs : List α) : Option (Nat × List α) :=
  stable_partition_natural_n p xs 0 xs.length

/-! ## Auxiliary definitions for the proofs -/

/-- The common shape of `bottomup_pass` and `bsearch_pass`, with the search for
the local boundary as a parameter. -/
def block_pass (fnd : List α → Nat → Nat → Option Nat) (n width : Nat) :
    Nat → List α → Nat → Nat → Option (Nat × Nat × Nat) →
      Option (List α × Option (Nat × Nat × Nat))
  | 0, xs, _, i, lmr => if i < n then none else some (xs, lmr)
  | fuel + 1, xs, next, i, lmr =>
    if i < n then
      let limit := if width > n - i then n - i
        else if width > n - i - width then n - i else 2 * width
      if limit > width then
        let m := next + width
        match fnd xs next m with
        | none => none
        | some l =>
          let next1 := m + (limit - width)
          match fnd xs m next1 with
          | none => none
          | some r =>
            block_pass fnd n width fuel (if l ≠ m ∧ m ≠ r then rotate xs l m r else xs)
              next1 (i + limit) (some (l, m, r))
      else
        block_pass fnd n width fuel xs next (i + limit) lmr
    else
      some (xs, lmr)

/-- The common shape of `bottomup_loop` and `bsearch_loop`. -/
def block_loop (fnd : List α → Nat → Nat → Option Nat) (first n : Nat) :
    Nat → List α → Nat → Option (Nat × Nat × Nat) →
      Option (List α × Option (Nat × Nat × Nat))
  | 0, _, _, _ => none
  | fuel + 1, xs, width, lmr =>
    match block_pass fnd n width n xs first 0 lmr with
    | none => none
    | some (xs1, lmr1) =>
      if width ≥ n - width then some (xs1, lmr1)
      else block_loop fnd first n fuel xs1 (width + width) lmr1

/-- Joins the blocks of a sequence two by two; a last single block is kept. -/
def pairUp : List (List α) → List (List α)
  | L :: R :: rest => (L ++ R) :: pairUp rest
  | bs => bs

/-- The sequence `bs` of blocks cuts a range into blocks of length `w`, the
last of which may be shorter (but not empty). -/
def Blocks (w : Nat) : List (List α) → Prop
  | [] => True
  | [b] => 0 < b.length ∧ b.length ≤ w
  | b :: c :: rest => b.length = w ∧ Blocks w (c :: rest)

/-- The cursors `(l, m, r)` after a pass of width `w` over the blocks `bs`
that start at offset `off`. -/
def passLMR (p : α → Bool) (w : Nat) :
    Nat → List (List α) → Option (Nat × Nat × Nat) → Option (Nat × Nat × Nat)
  | off, L :: R :: rest, _ =>
    passLMR p w (off + (L.length + R.length)) rest
      (some (off + L.countP p, off + w, off + w + R.countP p))
  | _, _, acc => acc

/-- Number of pairs of positions `i < j` with the element at `i` failing `p`
and the element at `j` satisfying `p`; the measure that decreases with every
rotation of the natural-runs partition. -/
def inversions (p : α → Bool) : List α → Nat
  | [] => 0
  | x :: xs => (if p x then 0 else xs.countP p) + inversions p xs

/-! ## The test data of spart_test.cpp -/

/-- The `Item` of the test: an id for tracking the order and a value for
partitioning. -/
structure Item where
  id : Nat
  value : Bool
  deriving DecidableEq

/-- The sequence `[(0,false),(1,true),(2,false),(3,true)]`. -/
def example_items : List Item :=
  [⟨0, false⟩, ⟨1, true⟩, ⟨2, false⟩, ⟨3, true⟩]

/-- The boundary offset and the order of the ids of a result. -/
def id_order (r : Option (Nat × List Item)) : Option (Nat × List Nat) :=
  r.map (fun br => (br.1, br.2.map Item.id))

/-- Boundary self-consistency of a result `r` for the predicate `p`: the call
returned a boundary `b` and a sequence `ys`, `b` is the position of the first
element of `ys` failing `p` (`find_if_not` over `ys`, the end if there is
none), every element before `b` satisfies `p` and every element from `b` on
fails `p`. -/
def boundary_self_consistent (p : α → Bool) (r : Option (Nat × List α)) : Prop :=
  ∃ b ys, r = some (b, ys)
    ∧ b = find_if_not p ys 0 ys.length
    ∧ (∀ i, i < b → ∃ x, ys[i]? = some x ∧ p x = true)
    ∧ (∀ i, b ≤ i → i < ys.length → ∃ x, ys[i]? = some x ∧ p x = false)

/-! ## Instrumented partition-point search -/

/-- The loop of `find_partition_point_n`, returning with the position the
list of the positions at which the predicate was evaluated, in order. -/
def find_partition_point_n_probes_loop (p : α → Bool) (xs : List α) :
    Nat → Nat → Nat → Option (Nat × List Nat)
  | 0, first, n => if n > 0 then none else some (first, [])
  | fuel + 1, first, n =>
    if n > 0 then
      let half := n / 2
      let middle := first + half
      match xs[middle]? with
      | none => none
      | some x =>
        if p x then
          match find_partition_point_n_probes_loop p xs fuel (middle + 1) (n - (half + 1)) with
          | none => none
          | some (q, probes) => some (q, middle :: probes)
        else
          match find_partition_point_n_probes_loop p xs fuel first half with
          | none => none
          | some (q, probes) => some (q, middle :: probes)
    else
      some (first, [])

/-- `find_partition_point_n(first, n, pred)` with the positions at which it
evaluates the predicate. -/
def find_partition_point_n_probes (p : α → Bool) (xs : List α) (first n : Nat) :
    Option (Nat × List Nat) :=
  find_partition_point_n_probes_loop p xs n first n

/-! ## The block-width loop in the arithmetic of an index type -/

/-- Reduction of an exact integer to the index type of width `w`: modulo
`2 ^ w` for an unsigned type, two's complement for a signed type. -/
def wrap (w : Nat) (signed : Bool) (x : Int) : Int :=
  if signed then (x + 2 ^ (w - 1)) % 2 ^ w - 2 ^ (w - 1) else x % 2 ^ w

/-- The maximum of the index type of width `w`. -/
def type_max (w : Nat) (signed : Bool) : Int :=
  if signed then 2 ^ (w - 1) - 1 else 2 ^ w - 1

/-- The arithmetic expressions of the block-width loop. -/
inductive LoopExpr where
  | n_sub_i
  | n_sub_i_sub_width
  | two_mul_width
  | limit_sub_width
  | i_add_limit
  | n_sub_width
  | width_add_width
  deriving DecidableEq

/-- What the block-width loop does: `expr e v`, the expression `e` is
evaluated and `v` is its exact mathematical value on the current values of the
variables; `step i limit`, an inner step at counter `i` with chunk size
`limit`; `pass width i`, the inner loop of the pass of width `width` is left
with counter `i`. -/
inductive LoopEvent where
  | expr (e : LoopExpr) (value : Int)
  | step (i limit : Int)
  | pass (width i : Int)
  deriving DecidableEq

/-- The conditional
`width > n - i ? n - i : width > n - i - width ? n - i : 2 * width`, where
`wr` reduces the result of every operation to the index type; returns the
value and the expressions evaluated. -/
def chunk_limit (wr : Int → Int) (n i width : Int) : Int × List LoopEvent :=
  let a := wr (n - i)
  if width > a then
    (a, [.expr .n_sub_i (n - i)])
  else
    let b := wr (a - width)
    if width > b then
      (a, [.expr .n_sub_i (n - i), .expr .n_sub_i_sub_width (a - width)])
    else
      (wr (2 * width), [.expr .n_sub_i (n - i), .expr .n_sub_i_sub_width (a - width),
        .expr .two_mul_width (2 * width)])

/-- The inner `for (i = 0, limit = 0; i < n; i += limit)` loop as far as the
index type is concerned.  With `merge` the body has the merge step of
`stable_partition_bottomup_n` and `stable_partition_bsearch_n`, which
evaluates `limit - width` when `limit > width`; without, it is the loop of
`test_loop_internal`.  Returns the final counter and the events. -/
def width_loop_inner (wr : Int → Int) (merge : Bool) (n width : Int) :
    Nat → Int → Option (Int × List LoopEvent)
  | 0, i => if i < n then none else some (i, [])
  | fuel + 1, i =>
    if i < n then
      let c := chunk_limit wr n i width
      let limit := c.1
      let body := if merge = true ∧ limit > width then
        [LoopEvent.expr .limit_sub_width (limit - width)] else []
      match width_loop_inner wr merge n width fuel (wr (i + limit)) with
      | none => none
      | some (j, events) =>
        some (j, c.2 ++ (.step i limit :: body ++ .expr .i_add_limit (i + limit) :: events))
    else
      some (i, [])

/-- The outer `for (;;)` loop: one pass, `break` when `width >= n - width`,
else `width += width`. -/
def width_loop_outer (wr : Int → Int) (merge : Bool) (n : Int) :
    Nat → Int → Option (List LoopEvent)
  | 0, _ => none
  | fuel + 1, width =>
    match width_loop_inner wr merge n width n.toNat 0 with
    | none => none
    | some (i, events) =>
      if width ≥ wr (n - width) then
        some (events ++ [.pass width i, .expr .n_sub_width (n - width)])
      else
        match width_loop_outer wr merge n fuel (wr (width + width)) with
        | none => none
        | some rest =>
          some (events ++ (.pass width i :: .expr .n_sub_width (n - width)
            :: .expr .width_add_width (width + width) :: rest))

/-- The block-width loop of `stable_partition_bottomup_n` and
`stable_partition_bsearch_n` (entered when `n` is neither 0 nor 1), on the
index type. -/
def block_width_loop (wr : Int → Int) (n : Int) : Option (List LoopEvent) :=
  width_loop_outer wr true n n.toNat 1

/-- `test_loop_internal<Difference>(n)` of the test: the same loop without
the merge step. -/
def test_loop_internal (wr : Int → Int) (n : Int) : Option (List LoopEvent) :=
  if n = 0 then some []
  else if n = 1 then some []
  else width_loop_outer wr false n n.toNat 1

/-- An event is in order for the size `n`: an expression has its exact value
in `[0, n]`; an inner step starts in `[0, n)`, advances by `limit >= 1` and
does not pass `n`; a pass has `1 <= width < n` and ends with the counter equal
to `n`. -/
def LoopEvent.ok (n : Int) : LoopEvent → Prop
  | .expr _ v => 0 ≤ v ∧ v ≤ n
  | .step i limit => 0 ≤ i ∧ 1 ≤ limit ∧ i + limit ≤ n
  | .pass width i => 1 ≤ width ∧ width < n ∧ i = n

/-- The sizes that `test_loop` passes to `test_loop_internal<short>`. -/
def test_sizes_short : List Int :=
  [2, 3, 4, 5, 32767 / 2 - 2, 32767 / 2 - 1, 32767 / 2, 32767 / 2 + 1, 32767 / 2 + 2,
    32767 - 2, 32767 - 1, 32767]

/-- The sizes that `test_loop` passes to `test_loop_internal<unsigned short>`. -/
def test_sizes_ushort : List Int :=
  [2, 3, 4, 5, 65535 / 2 - 2, 65535 / 2 - 1, 65535 / 2, 65535 / 2 + 1, 65535 / 2 + 2,
    65535 - 2, 65535 - 1, 65535]

/-! ## Binary-search partition with a checked search -/

/-- `std::is_partitioned(first, last, pred)`: the block `[first, last)` is a
run of elements satisfying `pred` followed by elements failing it. -/
def is_partitioned (p : α → Bool) (xs : List α) (first last : Nat) : Bool :=
  (((xs.drop first).take (last - first)).dropWhile p).all (fun x => !p x)

/-- `std::partition_point` with its precondition checked: `none` when the
searched block is not partitioned. -/
def partition_point_checked (p : α → Bool) (xs : List α) (first last : Nat) : Option Nat :=
  if is_partitioned p xs first last then partition_point p xs first last else none

/-- `stable_partition_bsearch_n` with the checked search at both calls of
`std::partition_point`. -/
def stable_partition_bsearch_checked_n (p : α → Bool) (xs : List α) (first n : Nat) :
    Option (Nat × List α) :=
  if n = 0 then
    some (first, xs)
  else if n = 1 then
    match xs[first]? with
    | none => none
    | some x => some (if p x then first + 1 else first, xs)
  else
    match block_loop (partition_point_checked p) first n n xs 1 none with
    | some (xs1, some (l, m, r)) => some (l + (r - m), xs1)
    | _ => none

/-! ## One step and the progress of the natural-runs sweep -/

/-- The cursors `(l, m, r, next)` that one inner step of the sweep of
`stable_partition_natural_n` computes from the cursor `next` on `xs`. -/
def natural_step (p : α → Bool) (first last : Nat) (xs : List α) (next : Nat) :
    Nat × Nat × Nat × Nat :=
  let l := find_if_not p xs (if next = first then next else next + 1) last
  let m := if l = last then last else find_if p xs (l + 1) last
  let r := if m = last then last else find_if_not p xs (m + 1) last
  let next1 := if r = last then last else find_if p xs (r + 1) last
  (l, m, r, next1)

/-- The element at position `j` of `xs` exists and the predicate has the
value `b` on it. -/
def holds_at (p : α → Bool) (xs : List α) (j : Nat) (b : Bool) : Prop :=
  ∃ x, xs[j]? = some x ∧ p x = b

/-- Number of adjacent positions `(j, j + 1)` where the element at `j` fails
the predicate and the element at `j + 1` satisfies it. -/
def descents (p : α → Bool) : List α → Nat
  | x :: y :: rest => (if !p x && p y then 1 else 0) + descents p (y :: rest)
  | _ => 0

/-- The outer loop of `stable_partition_natural_n`, counting the sweeps: it
returns the number of sweeps with the result of `natural_loop`. -/
def natural_loop_count (p : α → Bool) (first n : Nat) :
    Nat → List α → Option (Nat × Nat × List α)
  | 0, _ => none
  | fuel + 1, xs =>
    match natural_sweep p first (first + n) (n + 1) xs first false with
    | none => none
    | some (xs1, l, m, r, change) =>
      if change then
        match natural_loop_count p first n fuel xs1 with
        | none => none
        | some (sweeps, res) => some (sweeps + 1, res)
      else some (1, l + (r - m), xs1)

/-- The number of sweeps that `stable_partition_natural` makes on `xs`. -/
def natural_sweeps (p : α → Bool) (xs : List α) : Option Nat :=
  if xs.length = 0 then some 0
  else if xs.length = 1 then some 0
  else (natural_loop_count p 0 xs.length (xs.length * xs.length + 1) xs).map Prod.fst

/-- The input "alternating false/true" of `spart_time.cpp`, of length `n`:
`items[i].id = i`, `items[i].value = (i % 2 != 0)`. -/
def alternating (n : Nat) : List Item :=
  (List.range n).map (fun i => Item.mk i (i % 2 != 0))

/-! ## The bottom-up variants with a record of their passes -/

/-- The inner `for` loop of `stable_partition_bottomup_n` as `bottomup_pass`,
recording every inner step: the counter `i`, the chunk size `limit`, and the
cursors `(l, m, r)` that the merge step assigns (`none` when `limit <= width`
and the step has no merge). -/
def bottomup_pass_log (p : α → Bool) (n width : Nat) :
    Nat → List α → Nat → Nat → Option (Nat × Nat × Nat) →
      List (Nat × Nat × Option (Nat × Nat × Nat)) →
      Option (List α × Option (Nat × Nat × Nat) × List (Nat × Nat × Option (Nat × Nat × Nat)))
  | 0, xs, _, i, lmr, steps => if i < n then none else some (xs, lmr, steps)
  | fuel + 1, xs, next, i, lmr, steps =>
    if i < n then
      let limit := if width > n - i then n - i
        else if width > n - i - width then n - i else 2 * width
      if limit > width then
        let m := next + width
        let l := find_if_not p xs next m
        let next1 := m + (limit - width)
        let r := find_if_not p xs m next1
        bottomup_pass_log p n width fuel (if l ≠ m ∧ m ≠ r then rotate xs l m r else xs)
          next1 (i + limit) (some (l, m, r)) (steps ++ [(i, limit, some (l, m, r))])
      else
        bottomup_pass_log p n width fuel xs next (i + limit) lmr (steps ++ [(i, limit, none)])
    else
      some (xs, lmr, steps)

/-- The outer `for (;;)` loop of `stable_partition_bottomup_n` as
`bottomup_loop`, recording every pass: its width and its inner steps.  The
record of the pass is written before the test `width >= n - width`. -/
def bottomup_loop_log (p : α → Bool) (first n : Nat) :
    Nat → List α → Nat → Option (Nat × Nat × Nat) →
      List (Nat × List (Nat × Nat × Option (Nat × Nat × Nat))) →
      Option (List α × Option (Nat × Nat × Nat)
        × List (Nat × List (Nat × Nat × Option (Nat × Nat × Nat))))
  | 0, _, _, _, _ => none
  | fuel + 1, xs, width, lmr, passes =>
    match bottomup_pass_log p n width n xs first 0 lmr [] with
    | none => none
    | some (xs1, lmr1, steps) =>
      if width ≥ n - width then some (xs1, lmr1, passes ++ [(width, steps)])
      else bottomup_loop_log p first n fuel xs1 (width + width) lmr1
        (passes ++ [(width, steps)])

/-- The inner `for` loop of `stable_partition_bsearch_n` as `bsearch_pass`,
recording every inner step as `bottomup_pass_log` does. -/
def bsearch_pass_log (p : α → Bool) (n width : Nat) :
    Nat → List α → Nat → Nat → Option (Nat × Nat × Nat) →
      List (Nat × Nat × Option (Nat × Nat × Nat)) →
      Option (List α × Option (Nat × Nat × Nat) × List (Nat × Nat × Option (Nat × Nat × Nat)))
  | 0, xs, _, i, lmr, steps => if i < n then none else some (xs, lmr, steps)
  | fuel + 1, xs, next, i, lmr, steps =>
    if i < n then
      let limit := if width > n - i then n - i
        else if width > n - i - width then n - i else 2 * width
      if limit > width then
        let m := next + width
        match partition_point p xs next m with
        | none => none
        | some l =>
          let next1 := m + (limit - width)
          match partition_point p xs m next1 with
          | none => none
          | some r =>
            bsearch_pass_log p n width fuel (if l ≠ m ∧ m ≠ r then rotate xs l m r else xs)
              next1 (i + limit) (some (l, m, r)) (steps ++ [(i, limit, some (l, m, r))])
      else
        bsearch_pass_log p n width fuel xs next (i + limit) lmr (steps ++ [(i, limit, none)])
    else
      some (xs, lmr, steps)

/-- The outer `for (;;)` loop of `stable_partition_bsearch_n` as
`bsearch_loop`, recording every pass as `bottomup_loop_log` does. -/
def bsearch_loop_log (p : α → Bool) (first n : Nat) :
    Nat → List α → Nat → Option (Nat × Nat × Nat) →
      List (Nat × List (Nat × Nat × Option (Nat × Nat × Nat))) →
      Option (List α × Option (Nat × Nat × Nat)
        × List (Nat × List (Nat × Nat × Option (Nat × Nat × Nat))))
  | 0, _, _, _, _ => none
  | fuel + 1, xs, width, lmr, passes =>
    match bsearch_pass_log p n width n xs first 0 lmr [] with
    | none => none
    | some (xs1, lmr1, steps) =>
      if width ≥ n - width then some (xs1, lmr1, passes ++ [(width, steps)])
      else bsearch_loop_log p first n fuel xs1 (width + width) lmr1
        (passes ++ [(width, steps)])

/-- The common shape of `bottomup_pass_log` and `bsearch_pass_log`, with the
search for the local boundary as a parameter. -/
def block_pass_log (fnd : List α → Nat → Nat → Option Nat) (n width : Nat) :
    Nat → List α → Nat → Nat → Option (Nat × Nat × Nat) →
      List (Nat × Nat × Option (Nat × Nat × Nat)) →
      Option (List α × Option (Nat × Nat × Nat) × List (Nat × Nat × Option (Nat × Nat × Nat)))
  | 0, xs, _, i, lmr, steps => if i < n then none else some (xs, lmr, steps)
  | fuel + 1, xs, next, i, lmr, steps =>
    if i < n then
      let limit := if width > n - i then n - i
        else if width > n - i - width then n - i else 2 * width
      if limit > width then
        let m := next + width
        match fnd xs next m with
        | none => none
        | some l =>
          let next1 := m + (limit - width)
          match fnd xs m next1 with
          | none => none
          | some r =>
            block_pass_log fnd n width fuel (if l ≠ m ∧ m ≠ r then rotate xs l m r else xs)
              next1 (i + limit) (some (l, m, r)) (steps ++ [(i, limit, some (l, m, r))])
      else
        block_pass_log fnd n width fuel xs next (i + limit) lmr (steps ++ [(i, limit, none)])
    else
      some (xs, lmr, steps)

/-- The common shape of `bottomup_loop_log` and `bsearch_loop_log`. -/
def block_loop_log (fnd : List α → Nat → Nat → Option Nat) (first n : Nat) :
    Nat → List α → Nat → Option (Nat × Nat × Nat) →
      List (Nat × List (Nat × Nat × Option (Nat × Nat × Nat))) →
      Option (List α × Option (Nat × Nat × Nat)
        × List (Nat × List (Nat × Nat × Option (Nat × Nat × Nat))))
  | 0, _, _, _, _ => none
  | fuel + 1, xs, width, lmr, passes =>
    match block_pass_log fnd n width n xs first 0 lmr [] with
    | none => none
    | some (xs1, lmr1, steps) =>
      if width ≥ n - width then some (xs1, lmr1, passes ++ [(width, steps)])
      else block_loop_log fnd first n fuel xs1 (width + width) lmr1
        (passes ++ [(width, steps)])

/-- What C15 says of the run of a bottom-up variant on a sequence `xs` of
length `n`, where `passes` is the record of the passes that the loop made
(for each pass its width and its inner steps), `lmr` the cursors on leaving
the loop and `result` what the variant returns: the passes are exactly those
of the widths `2 ^ 0, 2 ^ 1, ..., 2 ^ k`; every width is a power of two with
`1 <= width < n`; no pass before the last has `width >= n - width`, and the
last has, that is `2 * width >= n`: the loop leaves in the first pass with
`2 * width >= n`; the last pass is a single inner step, at `i = 0` with
`limit = n > width`, whose merge step assigns `(l, m, r)` with `m = width`;
these are the cursors on leaving the loop, and the variant returns
`l + (r - m)`, the number of elements satisfying `p`, with the partitioned
sequence. -/
def final_pass_shape (p : α → Bool) (xs : List α)
    (passes : List (Nat × List (Nat × Nat × Option (Nat × Nat × Nat))))
    (lmr : Option (Nat × Nat × Nat)) (result : Option (Nat × List α)) : Prop :=
  ∃ k l r,
    passes.map Prod.fst = (List.range (k + 1)).map (fun j => 2 ^ j)
    ∧ (∀ w ∈ passes.map Prod.fst, (∃ j, w = 2 ^ j) ∧ 1 ≤ w ∧ w < xs.length)
    ∧ (∀ j, j < k → ¬ (2 ^ j ≥ xs.length - 2 ^ j) ∧ 2 * 2 ^ j < xs.length)
    ∧ 2 ^ k ≥ xs.length - 2 ^ k ∧ 2 * 2 ^ k ≥ xs.length
    ∧ passes.getLast? = some (2 ^ k, [(0, xs.length, some (l, 2 ^ k, r))])
    ∧ xs.length > 2 ^ k
    ∧ l ≤ 2 ^ k ∧ 2 ^ k ≤ r ∧ r ≤ xs.length
    ∧ lmr = some (l, 2 ^ k, r)
    ∧ result = some (l + (r - 2 ^ k), xs.filter p ++ xs.filter (fun x => !p x))
    ∧ l + (r - 2 ^ k) = xs.countP p

/-! ## Lemmas on the standard algorithms -/

theorem rotate_append (A B C D : List α) :
    rotate (A ++ (B ++ (C ++ D))) A.length (A.length + B.length)
      (A.length + B.length + C.length) = A ++ (C ++ (B ++ D)) := by
  have h1 : (A ++ (B ++ (C ++ D))).take A.length = A := List.take_left' rfl
  have h2 : (A ++ (B ++ (C ++ D))).drop A.length = B ++ (C ++ D) := List.drop_left' rfl
  have h3 : (A ++ (B ++ (C ++ D))).drop (A.length + B.length) = C ++ D := by
    rw [← List.append_assoc]; exact List.drop_left' (by simp)
  have h4 : (A ++ (B ++ (C ++ D))).drop (A.length + B.length + C.length) = D := by
    rw [← List.append_assoc, ← List.append_assoc]
    exact List.drop_left' (by simp only [List.length_append])
  have h5 : (C ++ D).take (A.length + B.length + C.length - (A.length + B.length)) = C :=
    List.take_left' (by omega)
  have h6 : (B ++ (C ++ D)).take (A.length + B.length - A.length) = B :=
    List.take_left' (by omega)
  simp only [rotate, h1, h2, h3, h4, h5, h6, List.append_assoc]

theorem filter_not_length (p : α → Bool) (S : List α) :
    (S.filter p).length + (S.filter (fun x => !p x)).length = S.length := by
  induction S with
  | nil => rfl
  | cons x S ih =>
    cases h : p x <;> simp [List.filter_cons, h] <;> omega

theorem reference_length (p : α → Bool) (S : List α) :
    (reference_stable_partition p S).length = S.length := by
  simp [reference_stable_partition, filter_not_length]

/-- Merging two adjacent partitioned blocks by one rotation of the false tail
of the left block with the true head of the right block. -/
theorem merge_rotate (p : α → Bool) (A S1 S2 C : List α) :
    rotate (A ++ (reference_stable_partition p S1 ++ (reference_stable_partition p S2 ++ C)))
      (A.length + S1.countP p) (A.length + S1.length)
      (A.length + S1.length + S2.countP p)
      = A ++ (reference_stable_partition p (S1 ++ S2) ++ C) := by
  have h := rotate_append (A ++ S1.filter p) (S1.filter (fun x => !p x)) (S2.filter p)
    (S2.filter (fun x => !p x) ++ C)
  have e1 : (A ++ S1.filter p).length = A.length + S1.countP p := by
    simp [List.countP_eq_length_filter]
  have e2 : (A ++ S1.filter p).length + (S1.filter (fun x => !p x)).length
      = A.length + S1.length := by
    have := filter_not_length p S1
    simp only [List.length_append]; omega
  have e3 : (S2.filter p).length = S2.countP p := by
    simp [List.countP_eq_length_filter]
  rw [e2, e1, e3] at h
  simp only [reference_stable_partition, List.filter_append, List.append_assoc] at h ⊢
  exact h

/-- The merge step of the block algorithms, with its guard. -/
theorem merge_step (p : α → Bool) (A S1 S2 C : List α) :
    (if A.length + S1.countP p ≠ A.length + S1.length ∧
        A.length + S1.length ≠ A.length + S1.length + S2.countP p then
      rotate (A ++ (reference_stable_partition p S1 ++ (reference_stable_partition p S2 ++ C)))
        (A.length + S1.countP p) (A.length + S1.length)
        (A.length + S1.length + S2.countP p)
    else A ++ (reference_stable_partition p S1 ++ (reference_stable_partition p S2 ++ C)))
      = A ++ (reference_stable_partition p (S1 ++ S2) ++ C) := by
  split
  · exact merge_rotate p A S1 S2 C
  · rename_i h
    have h' : S1.countP p = S1.length ∨ S2.countP p = 0 := by omega
    rcases h' with h' | h'
    · have hf : S1.filter (fun x => !p x) = [] := by
        have := filter_not_length p S1
        rw [List.countP_eq_length_filter] at h'
        exact List.eq_nil_of_length_eq_zero (by omega)
      simp [reference_stable_partition, hf]
    · have hf : S2.filter p = [] := by
        rw [List.countP_eq_length_filter] at h'
        exact List.eq_nil_of_length_eq_zero h'
      simp [reference_stable_partition, hf]

/-! ## Recursive partition: correctness -/

theorem recursive_n_spec (p : α → Bool) :
    ∀ (fuel : Nat) (A S C : List α), S.length < fuel →
      stable_partition_recursive_n p fuel (A ++ (S ++ C)) A.length S.length
        = some (A.length + S.countP p, A ++ (reference_stable_partition p S ++ C)) := by
  intro fuel
  induction fuel with
  | zero => intro A S C h; omega
  | succ fuel ih =>
    intro A S C h
    unfold stable_partition_recursive_n
    by_cases h0 : S.length = 0
    · have : S = [] := List.eq_nil_of_length_eq_zero h0
      subst this
      simp [reference_stable_partition]
    · rw [if_neg h0]
      by_cases h1 : S.length = 1
      · rw [if_pos h1]
        obtain ⟨x, rfl⟩ := List.length_eq_one.mp h1
        have hx : (A ++ ([x] ++ C))[A.length]? = some x := by
          rw [List.getElem?_append_right (Nat.le_refl _)]; simp
        rw [hx]
        cases hp : p x <;> simp [reference_stable_partition, hp]
      · rw [if_neg h1]
        have hS : S = S.take (S.length / 2) ++ S.drop (S.length / 2) :=
          (List.take_append_drop _ _).symm
        have hl1 : (S.take (S.length / 2)).length = S.length / 2 := by
          rw [List.length_take]; omega
        have hl2 : (S.drop (S.length / 2)).length = S.length - S.length / 2 := by
          rw [List.length_drop]
        generalize hS1 : S.take (S.length / 2) = S1 at hS hl1
        generalize hS2 : S.drop (S.length / 2) = S2 at hS hl2
        have e1 : A ++ (S ++ C) = A ++ (S1 ++ (S2 ++ C)) := by
          rw [hS, List.append_assoc]
        have r1 := ih A S1 (S2 ++ C) (by omega)
        rw [hl1] at r1
        rw [e1, r1]
        have e2 : A ++ (reference_stable_partition p S1 ++ (S2 ++ C))
            = (A ++ reference_stable_partition p S1) ++ (S2 ++ C) := by
          rw [List.append_assoc]
        have hlen : (A ++ reference_stable_partition p S1).length = A.length + S.length / 2 := by
          rw [List.length_append, reference_length, hl1]
        have r2 := ih (A ++ reference_stable_partition p S1) S2 C (by omega)
        rw [hlen, hl2] at r2
        simp only []
        rw [e2, r2]
        simp only []
        have hm := merge_step p A S1 S2 C
        rw [hl1] at hm
        simp only [List.append_assoc] at hm ⊢
        rw [hm]
        rw [hS, List.countP_append]
        congr 2
        omega

/-! ## Linear and binary search on a partitioned block -/

theorem find_if_not_loop_spec (p : α → Bool) (C : List α) :
    ∀ (S A : List α),
      find_if_not_loop p (A ++ (S ++ C)) S.length A.length = A.length + (S.takeWhile p).length := by
  intro S
  induction S with
  | nil => intro A; simp [find_if_not_loop]
  | cons x S ih =>
    intro A
    have hx : (A ++ (x :: S ++ C))[A.length]? = some x := by
      rw [List.getElem?_append_right (Nat.le_refl _)]; simp
    simp only [List.length_cons, find_if_not_loop, hx]
    cases hp : p x
    · simp [List.takeWhile_cons, hp]
    · have h := ih (A ++ [x])
      simp only [List.append_assoc, List.singleton_append, List.length_append,
        List.length_singleton] at h
      simp only [List.cons_append, if_true, h, List.takeWhile_cons, hp, List.length_cons]
      omega

theorem find_if_loop_spec (p : α → Bool) (C : List α) :
    ∀ (S A : List α),
      find_if_loop p (A ++ (S ++ C)) S.length A.length
        = A.length + (S.takeWhile (fun x => !p x)).length := by
  intro S
  induction S with
  | nil => intro A; simp [find_if_loop]
  | cons x S ih =>
    intro A
    have hx : (A ++ (x :: S ++ C))[A.length]? = some x := by
      rw [List.getElem?_append_right (Nat.le_refl _)]; simp
    simp only [List.length_cons, find_if_loop, hx]
    cases hp : p x
    · have h := ih (A ++ [x])
      simp only [List.append_assoc, List.singleton_append, List.length_append,
        List.length_singleton] at h
      simp [List.takeWhile_cons, hp, h]
      omega
    · simp [List.takeWhile_cons, hp]

theorem takeWhile_append_of_all (p : α → Bool) (T F : List α)
    (hT : ∀ x ∈ T, p x = true) (hF : ∀ x ∈ F, p x = false) :
    (T ++ F).takeWhile p = T := by
  induction T with
  | nil =>
    cases F with
    | nil => rfl
    | cons y F => simp [List.takeWhile_cons, hF y (List.mem_cons_self _ _)]
  | cons x T ih =>
    have hx := hT x (List.mem_cons_self _ _)
    simp only [List.cons_append, List.takeWhile_cons, hx, if_true]
    rw [ih (fun y hy => hT y (List.mem_cons_of_mem _ hy))]

theorem takeWhile_reference (p : α → Bool) (S : List α) :
    (reference_stable_partition p S).takeWhile p = S.filter p := by
  apply takeWhile_append_of_all
  · intro x hx; exact (List.mem_filter.mp hx).2
  · intro x hx; simpa using (List.mem_filter.mp hx).2

theorem find_if_not_reference (p : α → Bool) (A S C : List α) :
    find_if_not p (A ++ (reference_stable_partition p S ++ C)) A.length (A.length + S.length)
      = A.length + S.countP p := by
  have h := find_if_not_loop_spec p C (reference_stable_partition p S) A
  rw [reference_length, takeWhile_reference] at h
  simp only [find_if_not, Nat.add_sub_cancel_left, h, List.countP_eq_length_filter]

theorem find_partition_point_n_loop_spec (p : α → Bool) (xs : List α) :
    ∀ (fuel first n k : Nat), n ≤ fuel → k ≤ n →
      (∀ i, i < n → ∃ x, xs[first + i]? = some x ∧ (p x = true ↔ i < k)) →
      find_partition_point_n_loop p xs fuel first n = some (first + k) := by
  intro fuel
  induction fuel with
  | zero =>
    intro first n k hn hk _
    have : n = 0 := by omega
    subst this
    have : k = 0 := by omega
    subst this
    simp [find_partition_point_n_loop]
  | succ fuel ih =>
    intro first n k hn hk h
    unfold find_partition_point_n_loop
    by_cases h0 : n > 0
    · rw [if_pos h0]
      obtain ⟨x, hx, hpx⟩ := h (n / 2) (by omega)
      simp only [hx]
      by_cases hp : p x = true
      · rw [if_pos hp]
        have hlt : n / 2 < k := hpx.mp hp
        have r := ih (first + n / 2 + 1) (n - (n / 2 + 1)) (k - (n / 2 + 1)) (by omega) (by omega)
          (by
            intro i hi
            obtain ⟨y, hy, hpy⟩ := h (n / 2 + 1 + i) (by omega)
            refine ⟨y, ?_, ?_⟩
            · rw [← hy]; congr 1; omega
            · rw [hpy]; omega)
        rw [r]; congr 1; omega
      · rw [if_neg hp]
        have hge : ¬ n / 2 < k := fun hlt => hp (hpx.mpr hlt)
        exact ih first (n / 2) k (by omega) (by omega)
          (by
            intro i hi
            obtain ⟨y, hy, hpy⟩ := h i (by omega)
            exact ⟨y, hy, hpy⟩)
    · have : n = 0 := by omega
      subst this
      have : k = 0 := by omega
      subst this
      simp

theorem getElem_partitioned (p : α → Bool) (A T F C : List α)
    (hT : ∀ x ∈ T, p x = true) (hF : ∀ x ∈ F, p x = false) (i : Nat)
    (hi : i < T.length + F.length) :
    ∃ x, (A ++ (T ++ (F ++ C)))[A.length + i]? = some x ∧ (p x = true ↔ i < T.length) := by
  rw [List.getElem?_append_right (Nat.le_add_right _ _), Nat.add_sub_cancel_left]
  by_cases h : i < T.length
  · rw [List.getElem?_append_left h]
    refine ⟨T[i], List.getElem?_eq_getElem h, ?_⟩
    simp [h, hT _ (List.getElem_mem h)]
  · have h' : T.length ≤ i := by omega
    have h2 : i - T.length < F.length := by omega
    rw [List.getElem?_append_right h', List.getElem?_append_left h2]
    refine ⟨F[i - T.length], List.getElem?_eq_getElem h2, ?_⟩
    simp [h, hF _ (List.getElem_mem h2)]

theorem partition_point_reference (p : α → Bool) (A S C : List α) :
    partition_point p (A ++ (reference_stable_partition p S ++ C)) A.length (A.length + S.length)
      = some (A.length + S.countP p) := by
  have hlen := filter_not_length p S
  simp only [partition_point, find_partition_point, find_partition_point_n,
    Nat.add_sub_cancel_left]
  rw [List.countP_eq_length_filter]
  apply find_partition_point_n_loop_spec p _ S.length A.length S.length _ (Nat.le_refl _)
    (by omega)
  intro i hi
  simp only [reference_stable_partition, List.append_assoc]
  apply getElem_partitioned
  · intro x hx; exact (List.mem_filter.mp hx).2
  · intro x hx; simpa using (List.mem_filter.mp hx).2
  · omega

/-! ## Block passes: correctness -/

theorem bottomup_pass_eq (p : α → Bool) (n w : Nat) :
    ∀ (fuel : Nat) (xs : List α) (next i : Nat) (lmr : Option (Nat × Nat × Nat)),
      bottomup_pass p n w fuel xs next i lmr
        = block_pass (fun ys a b => some (find_if_not p ys a b)) n w fuel xs next i lmr := by
  intro fuel
  induction fuel with
  | zero => intros; rfl
  | succ fuel ih =>
    intro xs next i lmr
    simp only [bottomup_pass, block_pass, ih]

theorem bsearch_pass_eq (p : α → Bool) (n w : Nat) :
    ∀ (fuel : Nat) (xs : List α) (next i : Nat) (lmr : Option (Nat × Nat × Nat)),
      bsearch_pass p n w fuel xs next i lmr
        = block_pass (partition_point p) n w fuel xs next i lmr := by
  intro fuel
  induction fuel with
  | zero => intros; rfl
  | succ fuel ih =>
    intro xs next i lmr
    simp only [bsearch_pass, block_pass, ih]

theorem bottomup_loop_eq (p : α → Bool) (first n : Nat) :
    ∀ (fuel : Nat) (xs : List α) (w : Nat) (lmr : Option (Nat × Nat × Nat)),
      bottomup_loop p first n fuel xs w lmr
        = block_loop (fun ys a b => some (find_if_not p ys a b)) first n fuel xs w lmr := by
  intro fuel
  induction fuel with
  | zero => intros; rfl
  | succ fuel ih =>
    intro xs w lmr
    simp only [bottomup_loop, block_loop, ih, bottomup_pass_eq]

theorem bsearch_loop_eq (p : α → Bool) (first n : Nat) :
    ∀ (fuel : Nat) (xs : List α) (w : Nat) (lmr : Option (Nat × Nat × Nat)),
      bsearch_loop p first n fuel xs w lmr
        = block_loop (partition_point p) first n fuel xs w lmr := by
  intro fuel
  induction fuel with
  | zero => intros; rfl
  | succ fuel ih =>
    intro xs w lmr
    simp only [bsearch_loop, block_loop, ih, bsearch_pass_eq]

theorem blocks_head (w : Nat) (hw : 0 < w) (b : List α) (rest : List (List α))
    (h : Blocks w (b :: rest)) :
    0 < b.length ∧ b.length ≤ w ∧ (rest.flatten.length = 0 ∨ b.length = w) := by
  cases rest with
  | nil => simp only [Blocks] at h; simp; omega
  | cons c rest => simp only [Blocks] at h; omega

theorem blocks_tail (w : Nat) (b : List α) (rest : List (List α))
    (h : Blocks w (b :: rest)) : Blocks w rest := by
  cases rest with
  | nil => simp [Blocks]
  | cons c rest => simp only [Blocks] at h; exact h.2

theorem block_pass_spec (p : α → Bool) (fnd : List α → Nat → Nat → Option Nat)
    (hf : ∀ A S C : List α,
      fnd (A ++ (reference_stable_partition p S ++ C)) A.length (A.length + S.length)
        = some (A.length + S.countP p))
    (n w : Nat) (hw : 0 < w) :
    ∀ (fuel : Nat) (bs : List (List α)) (pre : List α) (lmr : Option (Nat × Nat × Nat)),
      bs.length ≤ fuel → Blocks w bs → n = pre.length + bs.flatten.length →
      block_pass fnd n w fuel (pre ++ (bs.map (reference_stable_partition p)).flatten)
          pre.length pre.length lmr
        = some (pre ++ ((pairUp bs).map (reference_stable_partition p)).flatten,
            passLMR p w pre.length bs lmr) := by
  intro fuel
  induction fuel with
  | zero =>
    intro bs pre lmr hfuel _ hn
    have : bs = [] := List.eq_nil_of_length_eq_zero (by omega)
    subst this
    simp [block_pass, pairUp, passLMR, hn]
  | succ fuel ih =>
    intro bs pre lmr hfuel hB hn
    match bs, hB, hfuel, hn with
    | [], _, _, hn =>
      simp [block_pass, pairUp, passLMR, hn]
    | [b], hB, _, hn =>
      simp only [Blocks] at hB
      simp only [List.flatten_cons, List.flatten_nil, List.append_nil] at hn
      have hlim : (if w > n - pre.length then n - pre.length
          else if w > n - pre.length - w then n - pre.length else 2 * w) = b.length := by
        split
        · omega
        · split <;> omega
      have hi : pre.length < n := by omega
      simp only [block_pass, hi, if_true, hlim]
      rw [if_neg (by omega)]
      have hend : ¬ pre.length + b.length < n := by omega
      cases fuel with
      | zero => simp [block_pass, hend, pairUp, passLMR]
      | succ fuel => simp [block_pass, hend, pairUp, passLMR]
    | L :: R :: rest, hB, hfuel, hn =>
      have hL : L.length = w := by simp only [Blocks] at hB; exact hB.1
      have hBR : Blocks w (R :: rest) := by simp only [Blocks] at hB; exact hB.2
      obtain ⟨hR0, hRw, hR⟩ := blocks_head w hw R rest hBR
      simp only [List.flatten_cons, List.length_append] at hn
      have hlim : (if w > n - pre.length then n - pre.length
          else if w > n - pre.length - w then n - pre.length else 2 * w) = w + R.length := by
        split
        · omega
        · split <;> omega
      have hi : pre.length < n := by omega
      simp only [block_pass, hi, if_true, hlim]
      rw [if_pos (by omega)]
      have e1 : pre ++ ((L :: R :: rest).map (reference_stable_partition p)).flatten
          = pre ++ (reference_stable_partition p L ++ (reference_stable_partition p R
              ++ (rest.map (reference_stable_partition p)).flatten)) := by
        simp
      have f1 := hf pre L (reference_stable_partition p R
              ++ (rest.map (reference_stable_partition p)).flatten)
      have f2 := hf (pre ++ reference_stable_partition p L) R
              ((rest.map (reference_stable_partition p)).flatten)
      rw [List.length_append, reference_length, hL] at f2
      rw [hL] at f1
      simp only [List.append_assoc] at f2
      have e3 : pre.length + w + (w + R.length - w) = pre.length + w + R.length := by omega
      rw [e1, f1]
      simp only []
      rw [e3, f2]
      simp only []
      have hm := merge_step p pre L R ((rest.map (reference_stable_partition p)).flatten)
      rw [hL] at hm
      rw [hm]
      have hlen : (pre ++ reference_stable_partition p (L ++ R)).length
          = pre.length + (w + R.length) := by
        rw [List.length_append, reference_length, List.length_append, hL]
      have r := ih rest (pre ++ reference_stable_partition p (L ++ R))
        (some (pre.length + L.countP p, pre.length + w, pre.length + w + R.countP p))
        (by simp only [List.length_cons] at hfuel; omega)
        (blocks_tail w R rest hBR)
        (by rw [hlen]; omega)
      rw [hlen] at r
      simp only [List.append_assoc] at r
      have e4 : pre.length + w + R.length = pre.length + (w + R.length) := by omega
      rw [e4, r]
      simp [pairUp, passLMR, hL]

theorem blocks_length_le (w : Nat) (hw : 0 < w) :
    ∀ bs : List (List α), Blocks w bs → bs.length ≤ bs.flatten.length := by
  intro bs
  induction bs with
  | nil => intro _; simp
  | cons b rest ih =>
    intro h
    have h1 := blocks_head w hw b rest h
    have h2 := ih (blocks_tail w b rest h)
    simp only [List.length_cons, List.flatten_cons, List.length_append]
    omega

theorem blocks_cons (w : Nat) (b : List α) (rest : List (List α))
    (hb : b.length = w) (hne : rest ≠ []) (h : Blocks w rest) : Blocks w (b :: rest) := by
  cases rest with
  | nil => exact absurd rfl hne
  | cons c rest => exact ⟨hb, h⟩

theorem pairUp_flatten : ∀ bs : List (List α), (pairUp bs).flatten = bs.flatten
  | [] => rfl
  | [_] => rfl
  | L :: R :: rest => by
    simp only [pairUp, List.flatten_cons, pairUp_flatten rest, List.append_assoc]

theorem pairUp_ne_nil : ∀ bs : List (List α), bs ≠ [] → pairUp bs ≠ []
  | [], h => absurd rfl h
  | [_], _ => by simp [pairUp]
  | _ :: _ :: _, _ => by simp [pairUp]

theorem blocks_pairUp (w : Nat) (hw : 0 < w) :
    ∀ bs : List (List α), Blocks w bs → Blocks (w + w) (pairUp bs)
  | [], _ => by simp [pairUp, Blocks]
  | [b], h => by
    simp only [Blocks] at h
    simp only [pairUp, Blocks]
    omega
  | L :: R :: rest, h => by
    have hL : L.length = w := by simp only [Blocks] at h; exact h.1
    have hBR : Blocks w (R :: rest) := by simp only [Blocks] at h; exact h.2
    have ih := blocks_pairUp w hw rest (blocks_tail w R rest hBR)
    simp only [pairUp]
    cases rest with
    | nil =>
      simp only [Blocks] at hBR
      simp only [pairUp, Blocks, List.length_append]
      omega
    | cons c rest =>
      have hR : R.length = w := by simp only [Blocks] at hBR; exact hBR.1
      exact blocks_cons (w + w) (L ++ R) _ (by rw [List.length_append, hL, hR])
        (pairUp_ne_nil _ (by simp)) ih

theorem blocks_final (w : Nat) (hw : 0 < w) (bs : List (List α)) (h : Blocks w bs)
    (h1 : w < bs.flatten.length) (h2 : w ≥ bs.flatten.length - w) :
    ∃ L R, bs = [L, R] ∧ L.length = w := by
  match bs, h with
  | [], _ => simp at h1
  | [b], h => simp only [Blocks] at h; simp at h1; omega
  | [L, R], h => exact ⟨L, R, rfl, by simp only [Blocks] at h; exact h.1⟩
  | L :: R :: c :: rest, h =>
    simp only [Blocks] at h
    have hc := blocks_head w hw c rest h.2.2
    simp only [List.flatten_cons, List.length_append] at h1 h2
    omega

theorem blocks_singletons : ∀ xs : List α, Blocks 1 (xs.map (fun x => [x]))
  | [] => by simp [Blocks]
  | [x] => by simp [Blocks]
  | x :: y :: rest => by
    have ih := blocks_singletons (y :: rest)
    simp only [List.map_cons] at ih ⊢
    exact ⟨rfl, ih⟩

theorem flatten_singletons (xs : List α) : (xs.map (fun x => [x])).flatten = xs := by
  induction xs with
  | nil => rfl
  | cons x xs ih => simp only [List.map_cons, List.flatten_cons, ih, List.singleton_append]

theorem flatten_reference_singletons (p : α → Bool) (xs : List α) :
    ((xs.map (fun x => [x])).map (reference_stable_partition p)).flatten = xs := by
  induction xs with
  | nil => rfl
  | cons x xs ih =>
    simp only [List.map_cons, List.flatten_cons, ih]
    cases h : p x <;> simp [reference_stable_partition, h]

theorem block_loop_spec (p : α → Bool) (fnd : List α → Nat → Nat → Option Nat)
    (hf : ∀ A S C : List α,
      fnd (A ++ (reference_stable_partition p S ++ C)) A.length (A.length + S.length)
        = some (A.length + S.countP p))
    (orig : List α) :
    ∀ (fuel w : Nat) (bs : List (List α)) (lmr : Option (Nat × Nat × Nat)),
      0 < w → w < orig.length → orig.length ≤ fuel + w → Blocks w bs → bs.flatten = orig →
      ∃ l m r, block_loop fnd 0 orig.length fuel
          ((bs.map (reference_stable_partition p)).flatten) w lmr
            = some (reference_stable_partition p orig, some (l, m, r))
          ∧ l + (r - m) = orig.countP p := by
  intro fuel
  induction fuel with
  | zero => intro w bs lmr _ h1 h2; omega
  | succ fuel ih =>
    intro w bs lmr hw h1 h2 hB hfl
    have hpass := block_pass_spec p fnd hf orig.length w hw orig.length bs [] lmr
      (by rw [← hfl]; exact blocks_length_le w hw bs hB) hB (by simp [hfl])
    simp only [List.nil_append, List.length_nil] at hpass
    simp only [block_loop, hpass]
    by_cases hbr : w ≥ orig.length - w
    · rw [if_pos hbr]
      obtain ⟨L, R, rfl, hL⟩ := blocks_final w hw bs hB (by rw [hfl]; exact h1)
        (by rw [hfl]; exact hbr)
      refine ⟨L.countP p, w, w + R.countP p, ?_, ?_⟩
      · simp [pairUp, passLMR, ← hfl]
      · simp [← hfl]
    · rw [if_neg hbr]
      exact ih (w + w) (pairUp bs) _ (by omega) (by omega) (by omega)
        (blocks_pairUp w hw bs hB) (by rw [pairUp_flatten, hfl])

theorem block_n_spec (p : α → Bool) (fnd : List α → Nat → Nat → Option Nat)
    (hf : ∀ A S C : List α,
      fnd (A ++ (reference_stable_partition p S ++ C)) A.length (A.length + S.length)
        = some (A.length + S.countP p))
    (xs : List α) (h2 : 2 ≤ xs.length) :
    ∃ l m r, block_loop fnd 0 xs.length xs.length xs 1 none
          = some (reference_stable_partition p xs, some (l, m, r))
      ∧ l + (r - m) = xs.countP p := by
  have h := block_loop_spec p fnd hf xs xs.length 1 (xs.map (fun x => [x])) none
    (by omega) (by omega) (by omega) (blocks_singletons xs) (flatten_singletons xs)
  rw [flatten_reference_singletons] at h
  exact h

theorem small_cases (p : α → Bool) (xs : List α) (h : xs.length = 1) :
    (match xs[0]? with
      | none => none
      | some x => some (if p x then 0 + 1 else 0, xs))
      = some (reference_boundary p xs, reference_stable_partition p xs) := by
  obtain ⟨x, rfl⟩ := List.length_eq_one.mp h
  cases hp : p x <;> simp [reference_boundary, reference_stable_partition, hp]

theorem bottomup_spec (p : α → Bool) (xs : List α) :
    stable_partition_bottomup p xs
      = some (reference_boundary p xs, reference_stable_partition p xs) := by
  unfold stable_partition_bottomup stable_partition_bottomup_n
  by_cases h0 : xs.length = 0
  · have : xs = [] := List.eq_nil_of_length_eq_zero h0
    subst this
    simp [reference_boundary, reference_stable_partition]
  · rw [if_neg h0]
    by_cases h1 : xs.length = 1
    · rw [if_pos h1]; exact small_cases p xs h1
    · rw [if_neg h1]
      obtain ⟨l, m, r, h, hb⟩ := block_n_spec p (fun ys a b => some (find_if_not p ys a b))
        (by intro A S C; simp only [find_if_not_reference]) xs (by omega)
      rw [bottomup_loop_eq, h]
      simp only [hb, reference_boundary]

theorem bsearch_spec (p : α → Bool) (xs : List α) :
    stable_partition_bsearch p xs
      = some (reference_boundary p xs, reference_stable_partition p xs) := by
  unfold stable_partition_bsearch stable_partition_bsearch_n
  by_cases h0 : xs.length = 0
  · have : xs = [] := List.eq_nil_of_length_eq_zero h0
    subst this
    simp [reference_boundary, reference_stable_partition]
  · rw [if_neg h0]
    by_cases h1 : xs.length = 1
    · rw [if_pos h1]; exact small_cases p xs h1
    · rw [if_neg h1]
      obtain ⟨l, m, r, h, hb⟩ := block_n_spec p (partition_point p)
        (partition_point_reference p) xs (by omega)
      rw [bsearch_loop_eq, h]
      simp only [hb, reference_boundary]

theorem recursive_spec (p : α → Bool) (xs : List α) :
    stable_partition_recursive p xs
      = some (reference_boundary p xs, reference_stable_partition p xs) := by
  have h := recursive_n_spec p (xs.length + 1) [] xs [] (by omega)
  simpa [stable_partition_recursive, reference_boundary] using h

/-! ## Natural-runs partition: correctness -/

theorem takeWhile_run (q : α → Bool) (S C : List α)
    (hS : ∀ x ∈ S, q x = true) (hC : ∀ y C1, C = y :: C1 → q y = false) :
    (S ++ C).takeWhile q = S := by
  induction S with
  | nil =>
    cases C with
    | nil => rfl
    | cons y C1 => simp [List.takeWhile_cons, hC y C1 rfl]
  | cons x S ih =>
    have hx := hS x (List.mem_cons_self _ _)
    simp only [List.cons_append, List.takeWhile_cons, hx, if_true]
    rw [ih (fun y hy => hS y (List.mem_cons_of_mem _ hy))]

theorem find_if_not_run (p : α → Bool) (A S C : List α) (a last : Nat)
    (ha : a = A.length) (hlast : last = A.length + (S.length + C.length))
    (hS : ∀ x ∈ S, p x = true) (hC : ∀ y C1, C = y :: C1 → p y = false) :
    find_if_not p (A ++ (S ++ C)) a last = a + S.length := by
  subst ha
  have h := find_if_not_loop_spec p [] (S ++ C) A
  have ht : (S ++ C).takeWhile p = S := takeWhile_run p S C hS hC
  rw [ht, List.append_nil, List.length_append] at h
  simp only [find_if_not, hlast, Nat.add_sub_cancel_left, h]

theorem find_if_run (p : α → Bool) (A S C : List α) (a last : Nat)
    (ha : a = A.length) (hlast : last = A.length + (S.length + C.length))
    (hS : ∀ x ∈ S, p x = false) (hC : ∀ y C1, C = y :: C1 → p y = true) :
    find_if p (A ++ (S ++ C)) a last = a + S.length := by
  subst ha
  have h := find_if_loop_spec p [] (S ++ C) A
  have ht : (S ++ C).takeWhile (fun x => !p x) = S :=
    takeWhile_run (fun x => !p x) S C (by simpa using hS) (by simpa using hC)
  rw [ht, List.append_nil, List.length_append] at h
  simp only [find_if, hlast, Nat.add_sub_cancel_left, h]

/-- The search `(a == last) ? last : find_if(next(a), last, pred)` from the
start `a` of a run of elements failing the predicate. -/
theorem skip_find_if (p : α → Bool) (A S C : List α) (a last : Nat)
    (ha : a = A.length) (hlast : last = A.length + (S.length + C.length))
    (hS : ∀ x ∈ S, p x = false) (hC : ∀ y C1, C = y :: C1 → p y = true)
    (hmax : S = [] → C = []) :
    (if a = last then last else find_if p (A ++ (S ++ C)) (a + 1) last) = a + S.length := by
  cases S with
  | nil =>
    have := hmax rfl
    subst this
    simp only [List.length_nil, Nat.add_zero] at hlast ⊢
    rw [if_pos (by omega)]; omega
  | cons y S1 =>
    simp only [List.length_cons] at hlast ⊢
    rw [if_neg (by omega)]
    have h := find_if_run p (A ++ [y]) S1 C (a + 1) last (by simp [ha])
      (by simp only [List.length_append, List.length_singleton]; omega)
      (fun x hx => hS x (List.mem_cons_of_mem _ hx)) hC
    simp only [List.append_assoc, List.singleton_append] at h
    simp only [List.cons_append, h]; omega

/-- The search `(a == last) ? last : find_if_not(next(a), last, pred)` from
the start `a` of a run of elements satisfying the predicate. -/
theorem skip_find_if_not (p : α → Bool) (A S C : List α) (a last : Nat)
    (ha : a = A.length) (hlast : last = A.length + (S.length + C.length))
    (hS : ∀ x ∈ S, p x = true) (hC : ∀ y C1, C = y :: C1 → p y = false)
    (hmax : S = [] → C = []) :
    (if a = last then last else find_if_not p (A ++ (S ++ C)) (a + 1) last)
      = a + S.length := by
  cases S with
  | nil =>
    have := hmax rfl
    subst this
    simp only [List.length_nil, Nat.add_zero] at hlast ⊢
    rw [if_pos (by omega)]; omega
  | cons y S1 =>
    simp only [List.length_cons] at hlast ⊢
    rw [if_neg (by omega)]
    have h := find_if_not_run p (A ++ [y]) S1 C (a + 1) last (by simp [ha])
      (by simp only [List.length_append, List.length_singleton]; omega)
      (fun x hx => hS x (List.mem_cons_of_mem _ hx)) hC
    simp only [List.append_assoc, List.singleton_append] at h
    simp only [List.cons_append, h]; omega

theorem run_split (q : α → Bool) (S : List α) :
    ∃ A B, S = A ++ B ∧ (∀ x ∈ A, q x = true) ∧ (∀ y B1, B = y :: B1 → q y = false) := by
  refine ⟨S.takeWhile q, S.dropWhile q, (List.takeWhile_append_dropWhile q S).symm,
    fun x hx => List.mem_takeWhile_imp hx, ?_⟩
  intro y B1 h
  have := List.head?_dropWhile_not q S
  rw [h] at this
  simpa using this

theorem inversions_append (p : α → Bool) (A B : List α) :
    inversions p (A ++ B)
      = inversions p A + inversions p B + A.countP (fun x => !p x) * B.countP p := by
  induction A with
  | nil => simp [inversions]
  | cons x A ih =>
    rw [List.cons_append]
    cases hp : p x
    · simp only [inversions, hp, ih, List.countP_append,
        List.countP_cons, Bool.not_false, if_true, Bool.false_eq_true, if_false]
      rw [Nat.add_mul]; omega
    · simp only [inversions, hp, ih, List.countP_cons, Bool.not_true,
        if_true, Bool.false_eq_true, if_false, Nat.add_zero]
      omega

theorem countP_all_false (p : α → Bool) (F : List α) (hF : ∀ x ∈ F, p x = false) :
    F.countP p = 0 ∧ F.countP (fun x => !p x) = F.length ∧ F.filter p = []
      ∧ F.filter (fun x => !p x) = F := by
  refine ⟨?_, ?_, ?_, ?_⟩
  · rw [List.countP_eq_zero]; intro x hx; simp [hF x hx]
  · rw [List.countP_eq_length]; intro x hx; simp [hF x hx]
  · rw [List.filter_eq_nil_iff]; intro x hx; simp [hF x hx]
  · rw [List.filter_eq_self]; intro x hx; simp [hF x hx]

theorem countP_all_true (p : α → Bool) (T : List α) (hT : ∀ x ∈ T, p x = true) :
    T.countP p = T.length ∧ T.countP (fun x => !p x) = 0 ∧ T.filter p = T
      ∧ T.filter (fun x => !p x) = [] := by
  refine ⟨?_, ?_, ?_, ?_⟩
  · rw [List.countP_eq_length]; intro x hx; simp [hT x hx]
  · rw [List.countP_eq_zero]; intro x hx; simp [hT x hx]
  · rw [List.filter_eq_self]; intro x hx; simp [hT x hx]
  · rw [List.filter_eq_nil_iff]; intro x hx; simp [hT x hx]

/-- Rotating a run of true elements in front of a run of false elements
removes exactly the inversions between the two runs. -/
theorem inversions_swap (p : α → Bool) (X F T Y : List α)
    (hF : ∀ x ∈ F, p x = false) (hT : ∀ x ∈ T, p x = true) :
    inversions p (X ++ (F ++ (T ++ Y)))
      = inversions p (X ++ (T ++ (F ++ Y))) + F.length * T.length := by
  obtain ⟨f1, f2, _, _⟩ := countP_all_false p F hF
  obtain ⟨t1, t2, _, _⟩ := countP_all_true p T hT
  simp only [inversions_append, List.countP_append, f1, f2, t1, t2, Nat.zero_mul,
    Nat.add_zero, Nat.zero_add, Nat.add_mul, Nat.mul_add]
  omega

theorem inversions_le (p : α → Bool) (xs : List α) :
    inversions p xs ≤ xs.length * xs.length := by
  induction xs with
  | nil => simp [inversions]
  | cons x xs ih =>
    have h := List.countP_le_length p (l := xs)
    simp only [inversions, List.length_cons]
    have : (if p x = true then 0 else xs.countP p) ≤ xs.length := by
      split <;> omega
    nlinarith

theorem head_append (q : α → Bool) (b : Bool) (S C : List α)
    (hS : ∀ x ∈ S, q x = b) (hmax : S = [] → C = []) :
    ∀ y C1, S ++ C = y :: C1 → q y = b := by
  intro y C1 h
  cases S with
  | nil => rw [hmax rfl] at h; cases h
  | cons x S1 =>
    simp only [List.cons_append, List.cons.injEq] at h
    rw [← h.1]; exact hS x (List.mem_cons_self _ _)

/-- Every sequence starts with a run of true elements, a run of false
elements, a run of true elements and a run of false elements (each maximal,
possibly empty), and what follows starts with a true element. -/
theorem runs_decomp (p : α → Bool) (rest : List α) :
    ∃ T F T1 F1 R, rest = T ++ (F ++ (T1 ++ (F1 ++ R)))
      ∧ (∀ x ∈ T, p x = true) ∧ (∀ x ∈ F, p x = false)
      ∧ (∀ x ∈ T1, p x = true) ∧ (∀ x ∈ F1, p x = false)
      ∧ (F = [] → T1 = []) ∧ (T1 = [] → F1 = []) ∧ (F1 = [] → R = [])
      ∧ (∀ y R1, R = y :: R1 → p y = true) := by
  obtain ⟨T, r1, e1, hT, h1⟩ := run_split p rest
  obtain ⟨F, r2, e2, hF, h2⟩ := run_split (fun x => !p x) r1
  obtain ⟨T1, r3, e3, hT1, h3⟩ := run_split p r2
  obtain ⟨F1, R, e4, hF1, h4⟩ := run_split (fun x => !p x) r3
  refine ⟨T, F, T1, F1, R, by rw [e1, e2, e3, e4], hT, by simpa using hF, hT1,
    by simpa using hF1, ?_, ?_, ?_, by simpa using h4⟩
  · intro hF0
    cases T1 with
    | nil => rfl
    | cons y T2 =>
      have hy := hT1 y (List.mem_cons_self _ _)
      have := h1 y (T2 ++ r3) (by rw [e2, hF0, e3]; rfl)
      rw [hy] at this; cases this
  · intro hT0
    cases F1 with
    | nil => rfl
    | cons y F2 =>
      have hy := hF1 y (List.mem_cons_self _ _)
      have := h2 y (F2 ++ R) (by rw [e3, hT0, e4]; rfl)
      simp only [Bool.not_eq_true', Bool.not_eq_false'] at hy this
      rw [hy] at this; cases this
  · intro hF0
    cases R with
    | nil => rfl
    | cons y R1 =>
      have hy := h4 y R1 rfl
      have := h3 y R1 (by rw [e4, hF0]; rfl)
      simp only [Bool.not_eq_true', Bool.not_eq_false'] at hy
      rw [hy] at this; cases this

/-- The four cursors computed by one step of the sweep. -/
theorem sweep_cursors (p : α → Bool) (pre T F T1 F1 R : List α) (last : Nat)
    (hlast : last = pre.length + (T.length + (F.length + (T1.length + (F1.length + R.length)))))
    (hT : ∀ x ∈ T, p x = true) (hF : ∀ x ∈ F, p x = false)
    (hT1 : ∀ x ∈ T1, p x = true) (hF1 : ∀ x ∈ F1, p x = false)
    (m1 : F = [] → T1 = []) (m2 : T1 = [] → F1 = []) (m3 : F1 = [] → R = [])
    (hR : ∀ y R1, R = y :: R1 → p y = true) :
    find_if_not p (pre ++ (T ++ (F ++ (T1 ++ (F1 ++ R))))) pre.length last
        = pre.length + T.length
    ∧ (if pre.length + T.length = last then last
        else find_if p (pre ++ (T ++ (F ++ (T1 ++ (F1 ++ R))))) (pre.length + T.length + 1) last)
        = pre.length + T.length + F.length
    ∧ (if pre.length + T.length + F.length = last then last
        else find_if_not p (pre ++ (T ++ (F ++ (T1 ++ (F1 ++ R)))))
          (pre.length + T.length + F.length + 1) last)
        = pre.length + T.length + F.length + T1.length
    ∧ (if pre.length + T.length + F.length + T1.length = last then last
        else find_if p (pre ++ (T ++ (F ++ (T1 ++ (F1 ++ R)))))
          (pre.length + T.length + F.length + T1.length + 1) last)
        = pre.length + T.length + F.length + T1.length + F1.length := by
  have n3 : F1 = [] → F1 ++ R = [] := fun h => by simp [h, m3 h]
  have n2 : T1 = [] → T1 ++ (F1 ++ R) = [] := fun h => by simp [h, m2 h, m3 (m2 h)]
  have n1 : F = [] → F ++ (T1 ++ (F1 ++ R)) = [] := fun h => by
    simp [h, m1 h, m2 (m1 h), m3 (m2 (m1 h))]
  have k2 : T1 = [] → F1 ++ R = [] := fun h => n3 (m2 h)
  have k1 : F = [] → T1 ++ (F1 ++ R) = [] := fun h => n2 (m1 h)
  have g3 := head_append p false F1 R hF1 m3
  have g2 := head_append p true T1 (F1 ++ R) hT1 k2
  have g1 := head_append p false F (T1 ++ (F1 ++ R)) hF k1
  refine ⟨?_, ?_, ?_, ?_⟩
  · exact find_if_not_run p pre T _ _ _ rfl (by simp only [List.length_append]; omega) hT g1
  · have := skip_find_if p (pre ++ T) F (T1 ++ (F1 ++ R)) (pre.length + T.length) last
      (by simp) (by simp only [List.length_append]; omega) hF g2 k1
    simpa only [List.append_assoc] using this
  · have := skip_find_if_not p (pre ++ (T ++ F)) T1 (F1 ++ R)
      (pre.length + T.length + F.length) last
      (by simp only [List.length_append]; omega) (by simp only [List.length_append]; omega)
      hT1 g3 k2
    simpa only [List.append_assoc] using this
  · have := skip_find_if p (pre ++ (T ++ (F ++ T1))) F1 R
      (pre.length + T.length + F.length + T1.length) last
      (by simp only [List.length_append]; omega) (by simp only [List.length_append]; omega)
      hF1 hR m3
    simpa only [List.append_assoc] using this

/-- The rotation of one step of the sweep, with its guard `m != r`. -/
theorem sweep_rotate (pre T F T1 Y : List α) :
    (if pre.length + T.length + F.length ≠ pre.length + T.length + F.length + T1.length then
      rotate (pre ++ (T ++ (F ++ (T1 ++ Y)))) (pre.length + T.length)
        (pre.length + T.length + F.length) (pre.length + T.length + F.length + T1.length)
    else pre ++ (T ++ (F ++ (T1 ++ Y))))
      = pre ++ (T ++ (T1 ++ (F ++ Y))) := by
  split
  · have h := rotate_append (pre ++ T) F T1 Y
    simp only [List.length_append, List.append_assoc] at h
    exact h
  · rename_i h
    have : T1 = [] := List.eq_nil_of_length_eq_zero (by omega)
    subst this
    rfl

/-- One sweep from a cursor state: it returns, keeps the true elements and
the false elements in their order, and either rotates (and then lowers the
number of inversions and sets `change`) or finds the rest already
partitioned and leaves everything as it is. -/
theorem natural_sweep_spec (p : α → Bool) :
    ∀ (fuel : Nat) (pre rest : List α) (last next : Nat) (change : Bool),
      last = pre.length + rest.length →
      (if next = 0 then next else next + 1) = pre.length →
      rest.length < fuel →
      ∃ xs1 l m r ch,
        natural_sweep p 0 last fuel (pre ++ rest) next change = some (xs1, l, m, r, ch)
        ∧ xs1.length = last
        ∧ xs1.filter p = (pre ++ rest).filter p
        ∧ xs1.filter (fun x => !p x) = (pre ++ rest).filter (fun x => !p x)
        ∧ ((ch = true ∧ inversions p xs1 < inversions p (pre ++ rest))
          ∨ (ch = change ∧ xs1 = pre ++ rest ∧ ∃ T F, rest = T ++ F
              ∧ (∀ x ∈ T, p x = true) ∧ (∀ x ∈ F, p x = false)
              ∧ l + (r - m) = pre.length + T.length)) := by
  intro fuel
  induction fuel with
  | zero => intro pre rest last next change _ _ h; omega
  | succ fuel ih =>
    intro pre rest last next change hlast hnext hfuel
    obtain ⟨T, F, T1, F1, R, rfl, hT, hF, hT1, hF1, m1, m2, m3, hR⟩ := runs_decomp p rest
    simp only [List.length_append] at hlast hfuel
    obtain ⟨c1, c2, c3, c4⟩ := sweep_cursors p pre T F T1 F1 R last hlast hT hF hT1 hF1
      m1 m2 m3 hR
    have hrot := sweep_rotate pre T F T1 (F1 ++ R)
    obtain ⟨f1, f2, f3, f4⟩ := countP_all_false p F hF
    obtain ⟨t1, t2, t3, t4⟩ := countP_all_true p T1 hT1
    have hfp : (pre ++ (T ++ (T1 ++ (F ++ (F1 ++ R))))).filter p
        = (pre ++ (T ++ (F ++ (T1 ++ (F1 ++ R))))).filter p := by
      simp only [List.filter_append, f3, t3, List.nil_append, List.append_nil]
    have hfn : (pre ++ (T ++ (T1 ++ (F ++ (F1 ++ R))))).filter (fun x => !p x)
        = (pre ++ (T ++ (F ++ (T1 ++ (F1 ++ R))))).filter (fun x => !p x) := by
      simp only [List.filter_append, f4, t4, List.nil_append, List.append_nil]
    have hinv := inversions_swap p (pre ++ T) F T1 (F1 ++ R) hF hT1
    simp only [List.append_assoc] at hinv
    have hlen : (pre ++ (T ++ (T1 ++ (F ++ (F1 ++ R))))).length = last := by
      simp only [List.length_append]; omega
    unfold natural_sweep
    simp only [hnext, c1, c2, c3, c4, hrot]
    cases R with
    | nil =>
      simp only [List.length_nil, Nat.add_zero] at hlast
      rw [if_neg (by omega)]
      refine ⟨_, _, _, _, _, rfl, hlen, hfp, hfn, ?_⟩
      by_cases h1 : T1 = []
      · right
        have h2 := m2 h1
        subst h1
        subst h2
        refine ⟨by simp, by simp, T, F, by simp, hT, hF, ?_⟩
        simp
      · left
        have hpos1 : 0 < T1.length := List.length_pos.mpr h1
        have hpos2 : 0 < F.length := List.length_pos.mpr (fun h => h1 (m1 h))
        have := Nat.mul_pos hpos2 hpos1
        refine ⟨?_, by omega⟩
        rw [if_pos (by omega)]
    | cons t R1 =>
      have hF1ne : F1 ≠ [] := fun h => by simpa using m3 h
      have hT1ne : T1 ≠ [] := fun h => hF1ne (m2 h)
      have hFne : F ≠ [] := fun h => hT1ne (m1 h)
      have hpos1 : 0 < T1.length := List.length_pos.mpr hT1ne
      have hpos2 : 0 < F.length := List.length_pos.mpr hFne
      have hpos3 : 0 < F1.length := List.length_pos.mpr hF1ne
      have hmul := Nat.mul_pos hpos2 hpos1
      simp only [List.length_cons] at hlast hfuel
      rw [if_pos (by omega)]
      have hch : (if pre.length + T.length + F.length
          ≠ pre.length + T.length + F.length + T1.length then true else change) = true := by
        rw [if_pos (by omega)]
      rw [hch]
      have e : pre ++ (T ++ (T1 ++ (F ++ (F1 ++ t :: R1))))
          = (pre ++ (T ++ (T1 ++ (F ++ (F1 ++ [t]))))) ++ R1 := by
        simp only [List.append_assoc, List.singleton_append]
      have r := ih (pre ++ (T ++ (T1 ++ (F ++ (F1 ++ [t]))))) R1 last
        (pre.length + T.length + F.length + T1.length + F1.length) true
        (by simp only [List.length_append, List.length_singleton]; omega)
        (by
          rw [if_neg (by omega)]
          simp only [List.length_append, List.length_singleton]; omega)
        (by omega)
      rw [← e] at r
      obtain ⟨xs1, l, m, r1, ch, hres, hl, hp1, hp2, hcase⟩ := r
      refine ⟨xs1, l, m, r1, ch, hres, hl, hp1.trans hfp, hp2.trans hfn, ?_⟩
      left
      rcases hcase with ⟨hc, hi⟩ | ⟨hc, hx, _⟩
      · exact ⟨hc, by omega⟩
      · exact ⟨hc, by rw [hx]; omega⟩

theorem reference_of_partitioned (p : α → Bool) (T F : List α)
    (hT : ∀ x ∈ T, p x = true) (hF : ∀ x ∈ F, p x = false) :
    reference_stable_partition p (T ++ F) = T ++ F ∧ (T ++ F).countP p = T.length := by
  obtain ⟨f1, _, f3, f4⟩ := countP_all_false p F hF
  obtain ⟨t1, _, t3, t4⟩ := countP_all_true p T hT
  constructor
  · simp only [reference_stable_partition, List.filter_append, f3, f4, t3, t4,
      List.append_nil, List.nil_append]
  · simp only [List.countP_append, f1, t1, Nat.add_zero]

theorem reference_congr (p : α → Bool) (xs ys : List α)
    (h1 : xs.filter p = ys.filter p)
    (h2 : xs.filter (fun x => !p x) = ys.filter (fun x => !p x)) :
    reference_stable_partition p xs = reference_stable_partition p ys
      ∧ xs.countP p = ys.countP p := by
  simp only [reference_stable_partition, List.countP_eq_length_filter, h1, h2, and_self]

theorem natural_loop_spec (p : α → Bool) (n : Nat) :
    ∀ (fuel : Nat) (xs : List α), xs.length = n → inversions p xs < fuel →
      natural_loop p 0 n fuel xs = some (xs.countP p, reference_stable_partition p xs) := by
  intro fuel
  induction fuel with
  | zero => intro xs _ h; omega
  | succ fuel ih =>
    intro xs hn hinv
    obtain ⟨xs1, l, m, r, ch, hres, hl, hp1, hp2, hcase⟩ :=
      natural_sweep_spec p (n + 1) [] xs (0 + n) 0 false (by simp [hn]) rfl (by omega)
    simp only [List.nil_append] at hres hp1 hp2 hcase
    simp only [natural_loop, hres]
    obtain ⟨e1, e2⟩ := reference_congr p xs1 xs hp1 hp2
    rcases hcase with ⟨hc, hi⟩ | ⟨hc, hx, T, F, hxs, hT, hF, hb⟩
    · subst hc
      simp only [if_true]
      rw [ih xs1 (by omega) (by omega), e1, e2]
    · subst hc
      obtain ⟨g1, g2⟩ := reference_of_partitioned p T F hT hF
      simp only [Bool.false_eq_true, if_false, hb, hx, List.length_nil, Nat.zero_add]
      rw [hxs, g1, g2]

theorem natural_spec (p : α → Bool) (xs : List α) :
    stable_partition_natural p xs
      = some (reference_boundary p xs, reference_stable_partition p xs) := by
  unfold stable_partition_natural stable_partition_natural_n
  by_cases h0 : xs.length = 0
  · have : xs = [] := List.eq_nil_of_length_eq_zero h0
    subst this
    simp [reference_boundary, reference_stable_partition]
  · rw [if_neg h0]
    by_cases h1 : xs.length = 1
    · rw [if_pos h1]; exact small_cases p xs h1
    · rw [if_neg h1]
      have := inversions_le p xs
      rw [natural_loop_spec p xs.length _ xs rfl (by omega)]
      rfl

/-! ## Rotation by three reversals -/

theorem reverse_append (P M S : List α) :
    reverse (P ++ (M ++ S)) P.length (P.length + M.length) = P ++ (M.reverse ++ S) := by
  have h1 : (P ++ (M ++ S)).take P.length = P := List.take_left' rfl
  have h2 : (P ++ (M ++ S)).drop P.length = M ++ S := List.drop_left' rfl
  have h3 : (P ++ (M ++ S)).drop (P.length + M.length) = S := by
    rw [← List.append_assoc]; exact List.drop_left' (by simp)
  have h4 : (M ++ S).take (P.length + M.length - P.length) = M := List.take_left' (by omega)
  simp only [reverse, h1, h2, h3, h4, List.append_assoc]

theorem rotate_by_reverse_append (P A B S : List α) :
    rotate_by_reverse (P ++ (A ++ (B ++ S))) P.length (P.length + A.length)
      (P.length + A.length + B.length) = P ++ (B ++ (A ++ S)) := by
  unfold rotate_by_reverse
  split
  · have r1 := reverse_append P A (B ++ S)
    have r2 := reverse_append (P ++ A.reverse) B S
    have r3 := reverse_append P (A.reverse ++ B.reverse) S
    simp only [List.length_append, List.length_reverse, List.append_assoc] at r2 r3
    rw [r1, r2, Nat.add_assoc, r3]
    simp
  · rename_i h
    have h' : A.length = 0 ∨ B.length = 0 := by omega
    rcases h' with h' | h'
    · rw [List.eq_nil_of_length_eq_zero h']; simp
    · rw [List.eq_nil_of_length_eq_zero h']; simp

/-- A sequence cut at three valid positions. -/
theorem cut_three (xs : List α) (first middle last : Nat)
    (h1 : first ≤ middle) (h2 : middle ≤ last) (h3 : last ≤ xs.length) :
    xs = xs.take first ++ ((xs.drop first).take (middle - first)
        ++ ((xs.drop middle).take (last - middle) ++ xs.drop last))
      ∧ (xs.take first).length = first
      ∧ ((xs.drop first).take (middle - first)).length = middle - first
      ∧ ((xs.drop middle).take (last - middle)).length = last - middle := by
  refine ⟨?_, ?_, ?_, ?_⟩
  · have e1 : (xs.drop middle).take (last - middle) ++ xs.drop last = xs.drop middle := by
      have := List.take_append_drop (last - middle) (xs.drop middle)
      rw [List.drop_drop] at this
      rw [show middle + (last - middle) = last by omega] at this
      exact this
    have e2 : (xs.drop first).take (middle - first) ++ xs.drop middle = xs.drop first := by
      have := List.take_append_drop (middle - first) (xs.drop first)
      rw [List.drop_drop] at this
      rw [show first + (middle - first) = middle by omega] at this
      exact this
    rw [e1, e2, List.take_append_drop]
  · rw [List.length_take]; omega
  · rw [List.length_take, List.length_drop]; omega
  · rw [List.length_take, List.length_drop]; omega

theorem rotate_by_reverse_spec (xs : List α) (first middle last : Nat)
    (h1 : first ≤ middle) (h2 : middle ≤ last) (h3 : last ≤ xs.length) :
    rotate_by_reverse xs first middle last
      = xs.take first ++ ((xs.drop middle).take (last - middle)
        ++ ((xs.drop first).take (middle - first) ++ xs.drop last)) := by
  obtain ⟨e, l1, l2, l3⟩ := cut_three xs first middle last h1 h2 h3
  have h := rotate_by_reverse_append (xs.take first) ((xs.drop first).take (middle - first))
    ((xs.drop middle).take (last - middle)) (xs.drop last)
  rw [← e, l1, l2, l3] at h
  rw [show first + (middle - first) = middle by omega,
    show middle + (last - middle) = last by omega] at h
  exact h

/-! ## Consequences of the reference result -/

theorem reference_boundary_consistent (p : α → Bool) (xs : List α) :
    reference_boundary p xs
        = find_if_not p (reference_stable_partition p xs) 0
            (reference_stable_partition p xs).length
      ∧ (∀ i, i < reference_boundary p xs →
          ∃ x, (reference_stable_partition p xs)[i]? = some x ∧ p x = true)
      ∧ (∀ i, reference_boundary p xs ≤ i → i < (reference_stable_partition p xs).length →
          ∃ x, (reference_stable_partition p xs)[i]? = some x ∧ p x = false) := by
  have hlen := filter_not_length p xs
  have hT : ∀ x ∈ xs.filter p, p x = true := fun x hx => (List.mem_filter.mp hx).2
  have hF : ∀ x ∈ xs.filter (fun x => !p x), p x = false := fun x hx => by
    simpa using (List.mem_filter.mp hx).2
  have hb : reference_boundary p xs = (xs.filter p).length := by
    simp only [reference_boundary, List.countP_eq_length_filter]
  have hget : ∀ i, i < (xs.filter p).length + (xs.filter (fun x => !p x)).length →
      ∃ x, (reference_stable_partition p xs)[i]? = some x
        ∧ (p x = true ↔ i < (xs.filter p).length) := by
    intro i hi
    have := getElem_partitioned p [] (xs.filter p) (xs.filter (fun x => !p x)) [] hT hF i hi
    simpa [reference_stable_partition] using this
  refine ⟨?_, ?_, ?_⟩
  · have h := find_if_not_reference p [] xs []
    simp only [List.nil_append, List.append_nil, List.length_nil, Nat.zero_add] at h
    rw [reference_length, h, reference_boundary]
  · intro i hi
    obtain ⟨x, hx, hp⟩ := hget i (by omega)
    exact ⟨x, hx, hp.mpr (by omega)⟩
  · intro i hi hi2
    rw [reference_length] at hi2
    obtain ⟨x, hx, hp⟩ := hget i (by omega)
    refine ⟨x, hx, ?_⟩
    cases hpx : p x
    · rfl
    · have := hp.mp hpx
      omega

theorem reference_idempotent (p : α → Bool) (xs : List α) :
    reference_stable_partition p (reference_stable_partition p xs)
        = reference_stable_partition p xs
      ∧ reference_boundary p (reference_stable_partition p xs) = reference_boundary p xs := by
  have hT : ∀ x ∈ xs.filter p, p x = true := fun x hx => (List.mem_filter.mp hx).2
  have hF : ∀ x ∈ xs.filter (fun x => !p x), p x = false := fun x hx => by
    simpa using (List.mem_filter.mp hx).2
  obtain ⟨g1, g2⟩ := reference_of_partitioned p _ _ hT hF
  exact ⟨g1, by
    simp only [reference_boundary, reference_stable_partition, g2,
      List.countP_eq_length_filter]⟩

theorem find_if_not_partitioned (p : α → Bool) (A T F C : List α)
    (hT : ∀ x ∈ T, p x = true) (hF : ∀ x ∈ F, p x = false) :
    find_if_not p (A ++ (T ++ (F ++ C))) A.length (A.length + (T.length + F.length))
      = A.length + T.length := by
  have h := find_if_not_loop_spec p C (T ++ F) A
  rw [takeWhile_append_of_all p T F hT hF, List.length_append] at h
  simp only [find_if_not, Nat.add_sub_cancel_left, List.append_assoc] at h ⊢
  exact h

theorem find_partition_point_n_partitioned (p : α → Bool) (A T F C : List α)
    (hT : ∀ x ∈ T, p x = true) (hF : ∀ x ∈ F, p x = false) :
    find_partition_point_n p (A ++ (T ++ (F ++ C))) A.length (T.length + F.length)
      = some (A.length + T.length) := by
  unfold find_partition_point_n
  exact find_partition_point_n_loop_spec p _ _ A.length _ T.length (Nat.le_refl _)
    (by omega) (fun i hi => getElem_partitioned p A T F C hT hF i hi)

/-! ## The claims -/

/-- Claim C1: for every sequence and predicate the four variants return the
same boundary offset and leave the same final sequence; on the sequence
`[(0,false),(1,true),(2,false),(3,true)]` each returns the boundary 2 and the
order of ids `[1, 3, 0, 2]`. -/
theorem C1_cross_algorithm_agreement :
    (∀ (α : Type) (p : α → Bool) (xs : List α), ∃ b ys,
      stable_partition_recursive p xs = some (b, ys)
      ∧ stable_partition_bottomup p xs = some (b, ys)
      ∧ stable_partition_bsearch p xs = some (b, ys)
      ∧ stable_partition_natural p xs = some (b, ys))
    ∧ id_order (stable_partition_recursive Item.value example_items) = some (2, [1, 3, 0, 2])
    ∧ id_order (stable_partition_bottomup Item.value example_items) = some (2, [1, 3, 0, 2])
    ∧ id_order (stable_partition_bsearch Item.value example_items) = some (2, [1, 3, 0, 2])
    ∧ id_order (stable_partition_natural Item.value example_items) = some (2, [1, 3, 0, 2]) := by
  refine ⟨?_, by decide, by decide, by decide, by decide⟩
  intro α p xs
  exact ⟨_, _, recursive_spec p xs, bottomup_spec p xs, bsearch_spec p xs, natural_spec p xs⟩

/-- Claim C2: `stable_partition_recursive` returns, for every sequence and
predicate, the number of elements satisfying the predicate as boundary and
leaves the reference stable partition (true elements in their order, then
false elements in their order). -/
theorem C2_recursive_correct (p : α → Bool) (xs : List α) :
    stable_partition_recursive p xs
      = some (xs.countP p, xs.filter p ++ xs.filter (fun x => !p x)) :=
  recursive_spec p xs

/-- Claim C3: `stable_partition_bottomup` returns, for every sequence (of any
length, a power of two or not) and predicate, the number of elements
satisfying the predicate as boundary and leaves the reference stable
partition. -/
theorem C3_bottomup_correct (p : α → Bool) (xs : List α) :
    stable_partition_bottomup p xs
      = some (xs.countP p, xs.filter p ++ xs.filter (fun x => !p x)) :=
  bottomup_spec p xs

/-- Claim C4: `stable_partition_bsearch` returns, for every sequence and
predicate, the number of elements satisfying the predicate as boundary and
leaves the reference stable partition. -/
theorem C4_bsearch_correct (p : α → Bool) (xs : List α) :
    stable_partition_bsearch p xs
      = some (xs.countP p, xs.filter p ++ xs.filter (fun x => !p x)) :=
  bsearch_spec p xs

/-- Claim C5: `stable_partition_natural` terminates for every sequence and
predicate (it returns a result, so its sweep loop has reached a sweep without
change), returns the number of elements satisfying the predicate as boundary
and leaves the reference stable partition. -/
theorem C5_natural_correct (p : α → Bool) (xs : List α) :
    stable_partition_natural p xs
      = some (xs.countP p, xs.filter p ++ xs.filter (fun x => !p x)) :=
  natural_spec p xs

/-- Claim C6: the final sequence of each of the four variants is a
permutation of the input sequence. -/
theorem C6_permutation (p : α → Bool) (xs : List α) :
    (∃ b ys, stable_partition_recursive p xs = some (b, ys) ∧ ys.Perm xs)
    ∧ (∃ b ys, stable_partition_bottomup p xs = some (b, ys) ∧ ys.Perm xs)
    ∧ (∃ b ys, stable_partition_bsearch p xs = some (b, ys) ∧ ys.Perm xs)
    ∧ (∃ b ys, stable_partition_natural p xs = some (b, ys) ∧ ys.Perm xs) :=
  ⟨⟨_, _, recursive_spec p xs, List.filter_append_perm p xs⟩,
   ⟨_, _, bottomup_spec p xs, List.filter_append_perm p xs⟩,
   ⟨_, _, bsearch_spec p xs, List.filter_append_perm p xs⟩,
   ⟨_, _, natural_spec p xs, List.filter_append_perm p xs⟩⟩

/-- Claim C7: for each of the four variants the returned boundary `b` is the
position that `find_if_not` finds in the final sequence, every element before
`b` satisfies the predicate and every element from `b` on fails it. -/
theorem C7_boundary_consistent (p : α → Bool) (xs : List α) :
    boundary_self_consistent p (stable_partition_recursive p xs)
    ∧ boundary_self_consistent p (stable_partition_bottomup p xs)
    ∧ boundary_self_consistent p (stable_partition_bsearch p xs)
    ∧ boundary_self_consistent p (stable_partition_natural p xs) :=
  ⟨⟨_, _, recursive_spec p xs, reference_boundary_consistent p xs⟩,
   ⟨_, _, bottomup_spec p xs, reference_boundary_consistent p xs⟩,
   ⟨_, _, bsearch_spec p xs, reference_boundary_consistent p xs⟩,
   ⟨_, _, natural_spec p xs, reference_boundary_consistent p xs⟩⟩

/-- Claim C8: on a sequence that is already a true prefix `T` followed by a
false suffix `F`, each of the four variants returns the existing boundary and
leaves the sequence as it is; and running a variant on its own result gives
the same boundary and sequence as running it once. -/
theorem C8_idempotence (p : α → Bool) (T F : List α)
    (hT : ∀ x ∈ T, p x = true) (hF : ∀ x ∈ F, p x = false) :
    (∀ f ∈ [stable_partition_recursive p, stable_partition_bottomup p,
        stable_partition_bsearch p, stable_partition_natural p],
      f (T ++ F) = some (T.length, T ++ F))
    ∧ (∀ f ∈ [stable_partition_recursive p, stable_partition_bottomup p,
        stable_partition_bsearch p, stable_partition_natural p],
      ∀ xs : List α, (f xs).bind (fun r => f r.2) = f xs) := by
  obtain ⟨g1, g2⟩ := reference_of_partitioned p T F hT hF
  constructor
  · intro f hf
    simp only [List.mem_cons, List.mem_singleton, List.not_mem_nil, or_false] at hf
    rcases hf with rfl | rfl | rfl | rfl
    · rw [recursive_spec, reference_boundary, g1, g2]
    · rw [bottomup_spec, reference_boundary, g1, g2]
    · rw [bsearch_spec, reference_boundary, g1, g2]
    · rw [natural_spec, reference_boundary, g1, g2]
  · intro f hf xs
    obtain ⟨i1, i2⟩ := reference_idempotent p xs
    simp only [List.mem_cons, List.mem_singleton, List.not_mem_nil, or_false] at hf
    rcases hf with rfl | rfl | rfl | rfl
    · simp only [recursive_spec, Option.some_bind, i1, i2]
    · simp only [bottomup_spec, Option.some_bind, i1, i2]
    · simp only [bsearch_spec, Option.some_bind, i1, i2]
    · simp only [natural_spec, Option.some_bind, i1, i2]

/-- Witness of C8 on the true prefix `[(1,true),(3,true)]` and the false
suffix `[(0,false),(2,false)]`. -/
theorem C8_idempotence_witness :
    (∀ x ∈ [Item.mk 1 true, Item.mk 3 true], Item.value x = true)
    ∧ (∀ x ∈ [Item.mk 0 false, Item.mk 2 false], Item.value x = false)
    ∧ (∀ f ∈ [stable_partition_recursive Item.value, stable_partition_bottomup Item.value,
        stable_partition_bsearch Item.value, stable_partition_natural Item.value],
      f ([Item.mk 1 true, Item.mk 3 true] ++ [Item.mk 0 false, Item.mk 2 false])
        = some ([Item.mk 1 true, Item.mk 3 true].length,
            [Item.mk 1 true, Item.mk 3 true] ++ [Item.mk 0 false, Item.mk 2 false])) :=
  ⟨by decide, by decide,
    (C8_idempotence Item.value [Item.mk 1 true, Item.mk 3 true]
      [Item.mk 0 false, Item.mk 2 false] (by decide) (by decide)).1⟩

/-- Claim C9: for positions `first <= middle <= last` of a sequence,
`rotate_by_reverse` leaves in `[first, last)` the block `[middle, last)`
followed by the block `[first, middle)`, each in its original order, leaves
the elements outside `[first, last)` as they are, agrees with `std::rotate`,
and changes nothing when one of the two blocks is empty. -/
theorem C9_rotate_by_reverse (xs : List α) (first middle last : Nat)
    (h1 : first ≤ middle) (h2 : middle ≤ last) (h3 : last ≤ xs.length) :
    rotate_by_reverse xs first middle last
        = xs.take first ++ ((xs.drop middle).take (last - middle)
          ++ ((xs.drop first).take (middle - first) ++ xs.drop last))
    ∧ (rotate_by_reverse xs first middle last).take first = xs.take first
    ∧ (rotate_by_reverse xs first middle last).drop last = xs.drop last
    ∧ rotate_by_reverse xs first middle last = rotate xs first middle last
    ∧ (first = middle ∨ middle = last → rotate_by_reverse xs first middle last = xs) := by
  have h := rotate_by_reverse_spec xs first middle last h1 h2 h3
  obtain ⟨_, l1, l2, l3⟩ := cut_three xs first middle last h1 h2 h3
  refine ⟨h, ?_, ?_, ?_, ?_⟩
  · rw [h]; exact List.take_left' l1
  · rw [h, ← List.append_assoc, ← List.append_assoc]
    exact List.drop_left' (by simp only [List.length_append, l1, l2, l3]; omega)
  · rw [h]; simp only [rotate, List.append_assoc]
  · intro hc
    unfold rotate_by_reverse
    rw [if_neg (by omega)]

/-- Witness of C9: rotating `[1, 2]` and `[3, 4]` inside `[0, 1, 2, 3, 4, 5]`. -/
theorem C9_rotate_by_reverse_witness :
    (1 ≤ 3 ∧ 3 ≤ 5 ∧ 5 ≤ [0, 1, 2, 3, 4, 5].length)
    ∧ rotate_by_reverse [0, 1, 2, 3, 4, 5] 1 3 5
        = [0, 1, 2, 3, 4, 5].take 1 ++ (([0, 1, 2, 3, 4, 5].drop 3).take (5 - 3)
          ++ (([0, 1, 2, 3, 4, 5].drop 1).take (3 - 1) ++ [0, 1, 2, 3, 4, 5].drop 5)) :=
  ⟨by decide,
    (C9_rotate_by_reverse [0, 1, 2, 3, 4, 5] 1 3 5 (by decide) (by decide) (by decide)).1⟩

/-- Claim C10: on a range `[first, first + n)` that is a true prefix `T`
followed by a false suffix `F`, `find_partition_point_n` and
`find_partition_point` return the position `first + |T|`: its offset is the
number of elements of the range satisfying the predicate, and it is the
position of the first false element (the end when there is none).  The
search only reads the sequence: it returns nothing but the position. -/
theorem C10_find_partition_point (p : α → Bool) (A T F C : List α)
    (hT : ∀ x ∈ T, p x = true) (hF : ∀ x ∈ F, p x = false) :
    find_partition_point_n p (A ++ (T ++ (F ++ C))) A.length (T.length + F.length)
        = some (A.length + T.length)
    ∧ find_partition_point p (A ++ (T ++ (F ++ C))) A.length
        (A.length + (T.length + F.length)) = some (A.length + T.length)
    ∧ T.length = (T ++ F).countP p
    ∧ find_if_not p (A ++ (T ++ (F ++ C))) A.length (A.length + (T.length + F.length))
        = A.length + T.length := by
  have h := find_partition_point_n_partitioned p A T F C hT hF
  refine ⟨h, ?_, (reference_of_partitioned p T F hT hF).2.symm,
    find_if_not_partitioned p A T F C hT hF⟩
  simp only [find_partition_point, Nat.add_sub_cancel_left, h]

/-- Witness of C10: the range `[(1,true),(3,true),(0,false)]` inside a longer
sequence. -/
theorem C10_find_partition_point_witness :
    (∀ x ∈ [Item.mk 1 true, Item.mk 3 true], Item.value x = true)
    ∧ (∀ x ∈ [Item.mk 0 false], Item.value x = false)
    ∧ find_partition_point_n Item.value
        ([Item.mk 7 false] ++ ([Item.mk 1 true, Item.mk 3 true]
          ++ ([Item.mk 0 false] ++ [Item.mk 8 true])))
        [Item.mk 7 false].length
        ([Item.mk 1 true, Item.mk 3 true].length + [Item.mk 0 false].length)
      = some ([Item.mk 7 false].length + [Item.mk 1 true, Item.mk 3 true].length) :=
  ⟨by decide, by decide,
    (C10_find_partition_point Item.value [Item.mk 7 false] [Item.mk 1 true, Item.mk 3 true]
      [Item.mk 0 false] [Item.mk 8 true] (by decide) (by decide)).1⟩

/-! ## Partition-point search on an arbitrary range -/

theorem log_step (n k c : Nat) (hn : 1 ≤ n) (hk : k ≤ n / 2)
    (hc : (k = 0 → c = 0) ∧ (1 ≤ k → c ≤ Nat.log 2 k + 1)) :
    c + 1 ≤ Nat.log 2 n + 1 := by
  by_cases h0 : k = 0
  · have := hc.1 h0; omega
  · have h1 := hc.2 (by omega)
    have h2 : Nat.log 2 k ≤ Nat.log 2 (n / 2) := Nat.log_mono_right hk
    have h3 := Nat.log_div_base 2 n
    have h4 : 0 < Nat.log 2 n := Nat.log_pos (by decide) (by omega)
    omega

/-- The probing search erased of its probes is the search. -/
theorem probes_loop_fst (p : α → Bool) (xs : List α) :
    ∀ (fuel first n : Nat),
      (find_partition_point_n_probes_loop p xs fuel first n).map Prod.fst
        = find_partition_point_n_loop p xs fuel first n := by
  intro fuel
  induction fuel with
  | zero =>
    intro first n
    simp only [find_partition_point_n_probes_loop, find_partition_point_n_loop]
    split <;> rfl
  | succ fuel ih =>
    intro first n
    simp only [find_partition_point_n_probes_loop, find_partition_point_n_loop]
    split
    · cases hx : xs[first + n / 2]? with
      | none => rfl
      | some x =>
        simp only []
        split
        · rw [← ih]
          cases find_partition_point_n_probes_loop p xs fuel (first + n / 2 + 1)
            (n - (n / 2 + 1)) <;> rfl
        · rw [← ih]
          cases find_partition_point_n_probes_loop p xs fuel first (n / 2) <;> rfl
    · rfl

/-- The search on any valid range: it returns, the result lies in the range
and is a local boundary, every probe lies in the range and there are at most
`log2 n + 1` probes. -/
theorem probes_loop_spec (p : α → Bool) (xs : List α) :
    ∀ (fuel first n : Nat), n ≤ fuel → first + n ≤ xs.length →
      ∃ q probes, find_partition_point_n_probes_loop p xs fuel first n = some (q, probes)
        ∧ first ≤ q ∧ q ≤ first + n
        ∧ (q = first ∨ ∃ x, xs[q - 1]? = some x ∧ p x = true)
        ∧ (q = first + n ∨ ∃ x, xs[q]? = some x ∧ p x = false)
        ∧ (∀ j ∈ probes, first ≤ j ∧ j < first + n)
        ∧ (n = 0 → probes.length = 0)
        ∧ (1 ≤ n → probes.length ≤ Nat.log 2 n + 1) := by
  intro fuel
  induction fuel with
  | zero =>
    intro first n hn _
    have : n = 0 := by omega
    subst this
    exact ⟨first, [], by simp [find_partition_point_n_probes_loop]⟩
  | succ fuel ih =>
    intro first n hn hlen
    unfold find_partition_point_n_probes_loop
    by_cases h0 : n > 0
    · rw [if_pos h0]
      have hm : first + n / 2 < xs.length := by omega
      have hx : xs[first + n / 2]? = some xs[first + n / 2] := List.getElem?_eq_getElem hm
      simp only [hx]
      by_cases hp : p xs[first + n / 2] = true
      · rw [if_pos hp]
        obtain ⟨q, probes, hres, h1, h2, h3, h4, h5, h6, h7⟩ :=
          ih (first + n / 2 + 1) (n - (n / 2 + 1)) (by omega) (by omega)
        rw [hres]
        refine ⟨q, _, rfl, by omega, by omega, ?_, ?_, ?_, by omega, ?_⟩
        · right
          rcases h3 with h3 | h3
          · exact ⟨_, by rw [h3, Nat.add_sub_cancel]; exact hx, hp⟩
          · exact h3
        · rcases h4 with h4 | h4
          · left; omega
          · right; exact h4
        · intro j hj
          rcases List.mem_cons.mp hj with rfl | hj
          · omega
          · have := h5 j hj; omega
        · intro _
          simp only [List.length_cons]
          exact log_step n _ _ (by omega) (by omega) ⟨h6, h7⟩
      · rw [if_neg hp]
        obtain ⟨q, probes, hres, h1, h2, h3, h4, h5, h6, h7⟩ :=
          ih first (n / 2) (by omega) (by omega)
        rw [hres]
        refine ⟨q, _, rfl, by omega, by omega, h3, ?_, ?_, by omega, ?_⟩
        · right
          rcases h4 with h4 | h4
          · exact ⟨_, by rw [h4]; exact hx, by simpa using hp⟩
          · exact h4
        · intro j hj
          rcases List.mem_cons.mp hj with rfl | hj
          · omega
          · have := h5 j hj; omega
        · intro _
          simp only [List.length_cons]
          exact log_step n _ _ (by omega) (Nat.le_refl _) ⟨h6, h7⟩
    · have : n = 0 := by omega
      subst this
      exact ⟨first, [], by simp⟩

/-! ## The block-width loop: no overflow, termination -/

theorem wrap_of_range (w : Nat) (signed : Bool) (x : Int)
    (h0 : 0 ≤ x) (h1 : x ≤ type_max w signed) (h2 : 1 ≤ type_max w signed) :
    wrap w signed x = x := by
  cases signed with
  | false =>
    simp only [wrap, type_max, Bool.false_eq_true, if_false] at h1 ⊢
    exact Int.emod_eq_of_lt h0 (by omega)
  | true =>
    simp only [wrap, type_max, if_true] at h1 h2 ⊢
    have hw : w ≠ 0 := by
      intro h; subst h; simp at h2
    have hpow : (2 : Int) ^ w = 2 * 2 ^ (w - 1) := by
      obtain ⟨k, rfl⟩ := Nat.exists_eq_succ_of_ne_zero hw
      simp [pow_succ]; ring
    rw [hpow, Int.emod_eq_of_lt (by omega) (by omega)]
    omega

theorem chunk_limit_spec (wr : Int → Int) (n i width : Int)
    (hwr : ∀ v, 0 ≤ v → v ≤ n → wr v = v) (hi : 0 ≤ i) (hin : i < n) (hw : 1 ≤ width) :
    chunk_limit wr n i width = chunk_limit id n i width
      ∧ (chunk_limit wr n i width).1 = min (n - i) (2 * width)
      ∧ ∀ ev ∈ (chunk_limit wr n i width).2, ev.ok n := by
  have ha : wr (n - i) = n - i := hwr _ (by omega) (by omega)
  simp only [chunk_limit, ha, id]
  by_cases h1 : width > n - i
  · simp only [h1, if_true, true_and]
    refine ⟨by omega, ?_⟩
    intro ev hev
    simp only [List.mem_singleton] at hev
    subst hev
    exact ⟨by omega, by omega⟩
  · have hb : wr (n - i - width) = n - i - width := hwr _ (by omega) (by omega)
    simp only [h1, if_false, hb]
    by_cases h2 : width > n - i - width
    · simp only [h2, if_true, true_and]
      refine ⟨by omega, ?_⟩
      intro ev hev
      simp only [List.mem_cons, List.mem_singleton, List.not_mem_nil, or_false] at hev
      rcases hev with rfl | rfl <;> exact ⟨by omega, by omega⟩
    · have hc : wr (2 * width) = 2 * width := hwr _ (by omega) (by omega)
      simp only [h2, if_false, hc, true_and]
      refine ⟨by omega, ?_⟩
      intro ev hev
      simp only [List.mem_cons, List.mem_singleton, List.not_mem_nil, or_false] at hev
      rcases hev with rfl | rfl | rfl <;> exact ⟨by omega, by omega⟩

theorem width_loop_inner_spec (wr : Int → Int) (merge : Bool) (n width : Int)
    (hwr : ∀ v, 0 ≤ v → v ≤ n → wr v = v) (hw : 1 ≤ width) :
    ∀ (fuel : Nat) (i : Int), 0 ≤ i → i ≤ n → n - i ≤ fuel →
      ∃ events, width_loop_inner wr merge n width fuel i = some (n, events)
        ∧ width_loop_inner id merge n width fuel i = some (n, events)
        ∧ ∀ ev ∈ events, ev.ok n := by
  intro fuel
  induction fuel with
  | zero =>
    intro i h0 h1 h2
    have : i = n := by omega
    subst this
    exact ⟨[], by simp [width_loop_inner], by simp [width_loop_inner], by simp⟩
  | succ fuel ih =>
    intro i h0 h1 h2
    by_cases hin : i < n
    · obtain ⟨c1, c2, c3⟩ := chunk_limit_spec wr n i width hwr h0 hin hw
      have hs : wr (i + (chunk_limit id n i width).1) = i + (chunk_limit id n i width).1 := by
        rw [← c1, c2]; exact hwr _ (by omega) (by omega)
      have hlim : (chunk_limit id n i width).1 = min (n - i) (2 * width) := by rw [← c1, c2]
      obtain ⟨events, r1, r2, r3⟩ := ih (i + (chunk_limit id n i width).1)
        (by rw [hlim]; omega) (by rw [hlim]; omega)
        (by rw [hlim]; push_cast at h2; omega)
      simp only [width_loop_inner, hin, if_true, c1, hs, id, r1, r2]
      refine ⟨_, rfl, rfl, ?_⟩
      intro ev hev
      simp only [List.mem_append, List.mem_cons] at hev
      rcases hev with hev | (rfl | hev) | rfl | hev
      · rw [← c1] at hev; exact c3 ev hev
      · rw [hlim]; exact ⟨h0, by omega, by omega⟩
      · split at hev
        · rename_i hm
          simp only [List.mem_singleton] at hev
          subst hev
          rw [hlim] at hm ⊢
          exact ⟨by omega, by omega⟩
        · simp at hev
      · rw [hlim]; exact ⟨by omega, by omega⟩
      · exact r3 ev hev
    · have : i = n := by omega
      subst this
      exact ⟨[], by simp [width_loop_inner], by simp [width_loop_inner], by simp⟩

theorem width_loop_outer_spec (wr : Int → Int) (merge : Bool) (n : Int)
    (hwr : ∀ v, 0 ≤ v → v ≤ n → wr v = v) :
    ∀ (fuel : Nat) (width : Int), 1 ≤ width → width < n → n ≤ fuel + width →
      ∃ events, width_loop_outer wr merge n fuel width = some events
        ∧ width_loop_outer id merge n fuel width = some events
        ∧ ∀ ev ∈ events, ev.ok n := by
  intro fuel
  induction fuel with
  | zero => intro width h1 h2 h3; simp at h3; omega
  | succ fuel ih =>
    intro width h1 h2 h3
    obtain ⟨events, r1, r2, r3⟩ := width_loop_inner_spec wr merge n width hwr h1 n.toNat 0
      (Int.le_refl 0) (by omega) (by rw [Int.toNat_of_nonneg (by omega)]; omega)
    have hd : wr (n - width) = n - width := hwr _ (by omega) (by omega)
    simp only [width_loop_outer, r1, r2, hd, id]
    by_cases hb : width ≥ n - width
    · simp only [hb, if_true]
      refine ⟨_, rfl, rfl, ?_⟩
      intro ev hev
      simp only [List.mem_append, List.mem_cons, List.mem_singleton, List.not_mem_nil,
        or_false] at hev
      rcases hev with hev | rfl | rfl
      · exact r3 ev hev
      · exact ⟨h1, h2, rfl⟩
      · exact ⟨by omega, by omega⟩
    · have hs : wr (width + width) = width + width := hwr _ (by omega) (by omega)
      simp only [hb, if_false, hs]
      obtain ⟨rest, q1, q2, q3⟩ := ih (width + width) (by omega) (by omega)
        (by push_cast at h3; omega)
      simp only [q1, q2]
      refine ⟨_, rfl, rfl, ?_⟩
      intro ev hev
      simp only [List.mem_append, List.mem_cons] at hev
      rcases hev with hev | rfl | rfl | rfl | hev
      · exact r3 ev hev
      · exact ⟨h1, h2, rfl⟩
      · exact ⟨by omega, by omega⟩
      · exact ⟨by omega, by omega⟩
      · exact q3 ev hev

theorem wrap_fixes (w : Nat) (signed : Bool) (n : Int) (h2 : 1 ≤ n)
    (hmax : n ≤ type_max w signed) :
    ∀ v, 0 ≤ v → v ≤ n → wrap w signed v = v :=
  fun v h0 h1 => wrap_of_range w signed v h0 (by omega) (by omega)

theorem test_loop_spec (w : Nat) (signed : Bool) (n : Int) (h2 : 2 ≤ n)
    (hmax : n ≤ type_max w signed) :
    ∃ events, test_loop_internal (wrap w signed) n = some events
      ∧ test_loop_internal id n = some events
      ∧ ∀ ev ∈ events, ev.ok n := by
  obtain ⟨events, r1, r2, r3⟩ := width_loop_outer_spec (wrap w signed) false n
    (wrap_fixes w signed n (by omega) hmax) n.toNat 1 (by omega) (by omega)
    (by rw [Int.toNat_of_nonneg (by omega)]; omega)
  refine ⟨events, ?_, ?_, r3⟩
  · simp only [test_loop_internal]
    rw [if_neg (by omega), if_neg (by omega), r1]
  · simp only [test_loop_internal]
    rw [if_neg (by omega), if_neg (by omega), r2]

/-- Claim C11: for an index type of width `w`, signed or unsigned, and
`2 <= n <= ` its maximum, the block-width loop of
`stable_partition_bottomup_n` and `stable_partition_bsearch_n` run in the
arithmetic of the type returns, every arithmetic expression it evaluates
(`n - i`, `n - i - width`, `2 * width`, `limit - width`, `i + limit`,
`n - width`, `width + width`) has its exact value in `[0, n]`, a value that
the type holds unchanged, and the run is the run in unbounded integers. -/
theorem C11_overflow_safety (w : Nat) (signed : Bool) (n : Int) (h2 : 2 ≤ n)
    (hmax : n ≤ type_max w signed) :
    ∃ events, block_width_loop (wrap w signed) n = some events
      ∧ block_width_loop id n = some events
      ∧ ∀ e v, LoopEvent.expr e v ∈ events → 0 ≤ v ∧ v ≤ n ∧ wrap w signed v = v := by
  obtain ⟨events, r1, r2, r3⟩ := width_loop_outer_spec (wrap w signed) true n
    (wrap_fixes w signed n (by omega) hmax) n.toNat 1 (by omega) (by omega)
    (by rw [Int.toNat_of_nonneg (by omega)]; omega)
  refine ⟨events, r1, r2, ?_⟩
  intro e v hev
  have h := r3 _ hev
  exact ⟨h.1, h.2, wrap_fixes w signed n (by omega) hmax v h.1 h.2⟩

/-- Witness of C11: `short` and `n = 5`. -/
theorem C11_overflow_safety_witness :
    ((2 : Int) ≤ 5 ∧ (5 : Int) ≤ type_max 16 true)
    ∧ ∃ events, block_width_loop (wrap 16 true) 5 = some events
      ∧ block_width_loop id 5 = some events
      ∧ ∀ e v, LoopEvent.expr e v ∈ events → 0 ≤ v ∧ v ≤ 5 ∧ wrap 16 true v = v :=
  ⟨by decide, C11_overflow_safety 16 true 5 (by decide) (by decide)⟩

/-- Claim C12: for an index type of width `w`, signed or unsigned, and
`2 <= n <= ` its maximum, `test_loop_internal` and the block-width loop of
`stable_partition_bottomup_n` terminate in the arithmetic of the type: every
inner step advances the counter by `limit >= 1` without passing `n`, every
pass ends with the counter equal to `n` and has `1 <= width < n`; this holds
in particular for the sizes that `test_loop` uses with `short` and
`unsigned short`. -/
theorem C12_loop_terminates (w : Nat) (signed : Bool) (n : Int) (h2 : 2 ≤ n)
    (hmax : n ≤ type_max w signed) :
    (∃ events, test_loop_internal (wrap w signed) n = some events
      ∧ (∀ i limit, LoopEvent.step i limit ∈ events → 0 ≤ i ∧ 1 ≤ limit ∧ i + limit ≤ n)
      ∧ (∀ width i, LoopEvent.pass width i ∈ events → 1 ≤ width ∧ width < n ∧ i = n))
    ∧ (∃ events, block_width_loop (wrap w signed) n = some events
      ∧ (∀ i limit, LoopEvent.step i limit ∈ events → 0 ≤ i ∧ 1 ≤ limit ∧ i + limit ≤ n)
      ∧ (∀ width i, LoopEvent.pass width i ∈ events → 1 ≤ width ∧ width < n ∧ i = n))
    ∧ (∀ m ∈ test_sizes_short, (test_loop_internal (wrap 16 true) m).isSome = true)
    ∧ (∀ m ∈ test_sizes_ushort, (test_loop_internal (wrap 16 false) m).isSome = true) := by
  refine ⟨?_, ?_, ?_, ?_⟩
  · obtain ⟨events, r1, _, r3⟩ := test_loop_spec w signed n h2 hmax
    exact ⟨events, r1, fun i limit h => r3 _ h, fun width i h => r3 _ h⟩
  · obtain ⟨events, r1, _, r3⟩ := width_loop_outer_spec (wrap w signed) true n
      (wrap_fixes w signed n (by omega) hmax) n.toNat 1 (by omega) (by omega)
      (by rw [Int.toNat_of_nonneg (by omega)]; omega)
    exact ⟨events, r1, fun i limit h => r3 _ h, fun width i h => r3 _ h⟩
  · intro m hm
    have hb : ∀ m ∈ test_sizes_short, 2 ≤ m ∧ m ≤ type_max 16 true := by decide
    obtain ⟨events, r1, _, _⟩ := test_loop_spec 16 true m (hb m hm).1 (hb m hm).2
    rw [r1]; rfl
  · intro m hm
    have hb : ∀ m ∈ test_sizes_ushort, 2 ≤ m ∧ m ≤ type_max 16 false := by decide
    obtain ⟨events, r1, _, _⟩ := test_loop_spec 16 false m (hb m hm).1 (hb m hm).2
    rw [r1]; rfl

/-- Witness of C12: `unsigned short` and `n = 65535`. -/
theorem C12_loop_terminates_witness :
    ((2 : Int) ≤ 65535 ∧ (65535 : Int) ≤ type_max 16 false)
    ∧ ∃ events, test_loop_internal (wrap 16 false) 65535 = some events
      ∧ (∀ i limit, LoopEvent.step i limit ∈ events → 0 ≤ i ∧ 1 ≤ limit ∧ i + limit ≤ 65535)
      ∧ (∀ width i, LoopEvent.pass width i ∈ events → 1 ≤ width ∧ width < 65535 ∧ i = 65535) :=
  ⟨by decide, (C12_loop_terminates 16 false 65535 (by decide) (by decide)).1⟩

/-- Claim C13: for `0 <= i < n <= ` the maximum of the index type and
`width >= 1`, the conditional
`width > n - i ? n - i : width > n - i - width ? n - i : 2 * width` evaluated
in the arithmetic of the type is `min(n - i, 2 * width)` of unbounded
integers, also when `2 * width` does not fit in the type. -/
theorem C13_chunk_size (w : Nat) (signed : Bool) (n i width : Int)
    (hi : 0 ≤ i) (hin : i < n) (hmax : n ≤ type_max w signed) (hw : 1 ≤ width) :
    (chunk_limit (wrap w signed) n i width).1 = min (n - i) (2 * width) :=
  (chunk_limit_spec (wrap w signed) n i width (wrap_fixes w signed n (by omega) hmax)
    hi hin hw).2.1

/-- Witness of C13: `short`, `n = 32767`, `i = 0` and `width = 16384`, where
`2 * width = 32768` does not fit. -/
theorem C13_chunk_size_witness :
    ((0 : Int) ≤ 0 ∧ (0 : Int) < 32767 ∧ (32767 : Int) ≤ type_max 16 true
      ∧ (1 : Int) ≤ 16384 ∧ type_max 16 true < 2 * 16384)
    ∧ (chunk_limit (wrap 16 true) 32767 0 16384).1 = min (32767 - 0) (2 * 16384) :=
  ⟨by decide, C13_chunk_size 16 true 32767 0 16384 (by decide) (by decide) (by decide)
    (by decide)⟩

/-! ## The remaining claims on the searches -/

theorem is_partitioned_reference (p : α → Bool) (A S C : List α) :
    is_partitioned p (A ++ (reference_stable_partition p S ++ C)) A.length
      (A.length + S.length) = true := by
  have h1 : (A ++ (reference_stable_partition p S ++ C)).drop A.length
      = reference_stable_partition p S ++ C := List.drop_left' rfl
  have h2 : (reference_stable_partition p S ++ C).take (A.length + S.length - A.length)
      = reference_stable_partition p S :=
    List.take_left' (by rw [reference_length]; omega)
  have hT : ∀ x ∈ S.filter p, p x = true := fun x hx => (List.mem_filter.mp hx).2
  have hF : ∀ x ∈ S.filter (fun x => !p x), p x = false := fun x hx => by
    simpa using (List.mem_filter.mp hx).2
  have h3 : (reference_stable_partition p S).dropWhile p = S.filter (fun x => !p x) := by
    have e := List.takeWhile_append_dropWhile p (reference_stable_partition p S)
    rw [takeWhile_reference] at e
    exact List.append_cancel_left e
  simp only [is_partitioned, h1, h2, h3, List.all_eq_true]
  intro x hx
  simp [hF x hx]

theorem partition_point_checked_reference (p : α → Bool) (A S C : List α) :
    partition_point_checked p (A ++ (reference_stable_partition p S ++ C)) A.length
      (A.length + S.length) = some (A.length + S.countP p) := by
  simp only [partition_point_checked, is_partitioned_reference, if_true,
    partition_point_reference]

theorem bsearch_checked_spec (p : α → Bool) (xs : List α) :
    stable_partition_bsearch_checked_n p xs 0 xs.length
      = some (reference_boundary p xs, reference_stable_partition p xs) := by
  unfold stable_partition_bsearch_checked_n
  by_cases h0 : xs.length = 0
  · have : xs = [] := List.eq_nil_of_length_eq_zero h0
    subst this
    simp [reference_boundary, reference_stable_partition]
  · rw [if_neg h0]
    by_cases h1 : xs.length = 1
    · rw [if_pos h1]; exact small_cases p xs h1
    · rw [if_neg h1]
      obtain ⟨l, m, r, h, hb⟩ := block_n_spec p (partition_point_checked p)
        (partition_point_checked_reference p) xs (by omega)
      rw [h]
      simp only [hb, reference_boundary]

/-- Claim C14: in `stable_partition_bsearch_n` every block handed to
`std::partition_point` is already a run of true elements followed by a run of
false elements: the variant whose searches return no result on a block that
is not partitioned returns, and returns what `stable_partition_bsearch`
returns. -/
theorem C14_bsearch_precondition (p : α → Bool) (xs : List α) :
    stable_partition_bsearch_checked_n p xs 0 xs.length = stable_partition_bsearch p xs
    ∧ (stable_partition_bsearch_checked_n p xs 0 xs.length).isSome = true := by
  rw [bsearch_checked_spec, bsearch_spec]
  exact ⟨rfl, rfl⟩

/-- Claim C16: on every range of `n` elements and for every predicate,
`find_partition_point_n` returns and evaluates the predicate at most
`floor(log2 n) + 1` times when `n >= 1`, and not at all when `n = 0`. -/
theorem C16_search_cost (p : α → Bool) (xs : List α) (first n : Nat)
    (h : first + n ≤ xs.length) :
    ∃ q probes, find_partition_point_n_probes p xs first n = some (q, probes)
      ∧ find_partition_point_n p xs first n = some q
      ∧ (n = 0 → probes.length = 0)
      ∧ (1 ≤ n → probes.length ≤ Nat.log 2 n + 1) := by
  obtain ⟨q, probes, hres, _, _, _, _, _, h6, h7⟩ :=
    probes_loop_spec p xs n first n (Nat.le_refl _) h
  refine ⟨q, probes, hres, ?_, h6, h7⟩
  have := probes_loop_fst p xs n first n
  rw [hres] at this
  exact this.symm

/-- Witness of C16: a range of three elements that is not partitioned. -/
theorem C16_search_cost_witness :
    (1 + 3 ≤ [Item.mk 0 true, Item.mk 1 false, Item.mk 2 true, Item.mk 3 false,
        Item.mk 4 true].length)
    ∧ ∃ q probes, find_partition_point_n_probes Item.value
          [Item.mk 0 true, Item.mk 1 false, Item.mk 2 true, Item.mk 3 false, Item.mk 4 true]
          1 3 = some (q, probes)
      ∧ find_partition_point_n Item.value
          [Item.mk 0 true, Item.mk 1 false, Item.mk 2 true, Item.mk 3 false, Item.mk 4 true]
          1 3 = some q
      ∧ (3 = 0 → probes.length = 0)
      ∧ (1 ≤ 3 → probes.length ≤ Nat.log 2 3 + 1) :=
  ⟨by decide, C16_search_cost Item.value _ 1 3 (by decide)⟩

/-- Claim C20: on every range of `n >= 0` elements and for every predicate,
partitioned or not, `find_partition_point_n` returns a position `q` in
`[first, first + n]` such that `q` is `first` or the element before `q`
satisfies the predicate, and `q` is the end or the element at `q` fails the
predicate; every position it reads lies in `[first, first + n)`. -/
theorem C20_search_unconditional (p : α → Bool) (xs : List α) (first n : Nat)
    (h : first + n ≤ xs.length) :
    ∃ q probes, find_partition_point_n_probes p xs first n = some (q, probes)
      ∧ find_partition_point_n p xs first n = some q
      ∧ first ≤ q ∧ q ≤ first + n
      ∧ (q = first ∨ ∃ x, xs[q - 1]? = some x ∧ p x = true)
      ∧ (q = first + n ∨ ∃ x, xs[q]? = some x ∧ p x = false)
      ∧ (∀ j ∈ probes, first ≤ j ∧ j < first + n) := by
  obtain ⟨q, probes, hres, h1, h2, h3, h4, h5, _, _⟩ :=
    probes_loop_spec p xs n first n (Nat.le_refl _) h
  refine ⟨q, probes, hres, ?_, h1, h2, h3, h4, h5⟩
  have := probes_loop_fst p xs n first n
  rw [hres] at this
  exact this.symm

/-- Witness of C20: a range of three elements that is not partitioned. -/
theorem C20_search_unconditional_witness :
    (1 + 3 ≤ [Item.mk 0 true, Item.mk 1 false, Item.mk 2 true, Item.mk 3 false,
        Item.mk 4 true].length)
    ∧ ∃ q probes, find_partition_point_n_probes Item.value
          [Item.mk 0 true, Item.mk 1 false, Item.mk 2 true, Item.mk 3 false, Item.mk 4 true]
          1 3 = some (q, probes)
      ∧ find_partition_point_n Item.value
          [Item.mk 0 true, Item.mk 1 false, Item.mk 2 true, Item.mk 3 false, Item.mk 4 true]
          1 3 = some q
      ∧ 1 ≤ q ∧ q ≤ 1 + 3
      ∧ (q = 1 ∨ ∃ x, [Item.mk 0 true, Item.mk 1 false, Item.mk 2 true, Item.mk 3 false,
          Item.mk 4 true][q - 1]? = some x ∧ Item.value x = true)
      ∧ (q = 1 + 3 ∨ ∃ x, [Item.mk 0 true, Item.mk 1 false, Item.mk 2 true, Item.mk 3 false,
          Item.mk 4 true][q]? = some x ∧ Item.value x = false)
      ∧ (∀ j ∈ probes, 1 ≤ j ∧ j < 1 + 3) :=
  ⟨by decide, C20_search_unconditional Item.value _ 1 3 (by decide)⟩

/-! ## The passes of the bottom-up variants -/

/-- After `j` passes the loop is at width `2 ^ j`, on blocks of that length
that are partitioned. -/
theorem block_loop_reach (p : α → Bool) (fnd : List α → Nat → Nat → Option Nat)
    (hf : ∀ A S C : List α,
      fnd (A ++ (reference_stable_partition p S ++ C)) A.length (A.length + S.length)
        = some (A.length + S.countP p))
    (orig : List α) :
    ∀ j, 2 ^ j < orig.length → ∃ bs lmr, Blocks (2 ^ j) bs ∧ bs.flatten = orig
      ∧ ∀ fuel, block_loop fnd 0 orig.length (fuel + j) orig 1 none
          = block_loop fnd 0 orig.length fuel
              ((bs.map (reference_stable_partition p)).flatten) (2 ^ j) lmr := by
  intro j
  induction j with
  | zero =>
    intro _
    refine ⟨orig.map (fun x => [x]), none, blocks_singletons orig, flatten_singletons orig, ?_⟩
    intro fuel
    rw [flatten_reference_singletons]; rfl
  | succ j ih =>
    intro h
    have hpow : 2 ^ (j + 1) = 2 ^ j + 2 ^ j := by rw [pow_succ]; omega
    have hw : 0 < 2 ^ j := Nat.two_pow_pos _
    obtain ⟨bs, lmr, hB, hfl, hloop⟩ := ih (by omega)
    refine ⟨pairUp bs, passLMR p (2 ^ j) 0 bs lmr, ?_, by rw [pairUp_flatten, hfl], ?_⟩
    · rw [hpow]; exact blocks_pairUp (2 ^ j) hw bs hB
    · intro fuel
      have hpass := block_pass_spec p fnd hf orig.length (2 ^ j) hw orig.length bs [] lmr
        (by rw [← hfl]; exact blocks_length_le (2 ^ j) hw bs hB) hB (by simp [hfl])
      simp only [List.nil_append, List.length_nil] at hpass
      rw [show fuel + (j + 1) = (fuel + 1) + j by omega, hloop (fuel + 1)]
      simp only [block_loop, hpass]
      rw [if_neg (by omega), hpow]

theorem final_width (n : Nat) (h2 : 2 ≤ n) :
    ∃ k, 2 ^ k < n ∧ n ≤ 2 * 2 ^ k ∧ k < n := by
  refine ⟨Nat.log 2 (n - 1), ?_, ?_, ?_⟩
  · have := Nat.pow_log_le_self 2 (x := n - 1) (by omega); omega
  · have := Nat.lt_pow_succ_log_self (b := 2) (by decide) (n - 1)
    rw [Nat.succ_eq_add_one, pow_succ] at this; omega
  · have h1 := Nat.pow_log_le_self 2 (x := n - 1) (by omega)
    have h2 := Nat.lt_two_pow (Nat.log 2 (n - 1))
    omega

theorem pow_lt_of_lt (n j k : Nat) (hjk : j < k) (hk : 2 ^ k < n) : 2 * 2 ^ j < n := by
  have h : 2 ^ (j + 1) ≤ 2 ^ k := Nat.pow_le_pow_right (by decide) hjk
  rw [pow_succ] at h; omega

/-! ## The cursors of a sweep step -/

theorem natural_sweep_step (p : α → Bool) (first last fuel : Nat) (xs : List α)
    (next : Nat) (change : Bool) :
    natural_sweep p first last (fuel + 1) xs next change
      = (if (natural_step p first last xs next).2.2.2 ≠ last then
          natural_sweep p first last fuel
            (if (natural_step p first last xs next).2.1
                ≠ (natural_step p first last xs next).2.2.1 then
              rotate xs (natural_step p first last xs next).1
                (natural_step p first last xs next).2.1
                (natural_step p first last xs next).2.2.1
            else xs)
            (natural_step p first last xs next).2.2.2
            (if (natural_step p first last xs next).2.1
                ≠ (natural_step p first last xs next).2.2.1 then true else change)
        else
          some ((if (natural_step p first last xs next).2.1
                ≠ (natural_step p first last xs next).2.2.1 then
              rotate xs (natural_step p first last xs next).1
                (natural_step p first last xs next).2.1
                (natural_step p first last xs next).2.2.1
            else xs),
            (natural_step p first last xs next).1,
            (natural_step p first last xs next).2.1,
            (natural_step p first last xs next).2.2.1,
            (if (natural_step p first last xs next).2.1
                ≠ (natural_step p first last xs next).2.2.1 then true else change))) :=
  rfl

theorem find_if_not_loop_index (p : α → Bool) (xs : List α) :
    ∀ (k first : Nat), first + k ≤ xs.length →
      first ≤ find_if_not_loop p xs k first
      ∧ find_if_not_loop p xs k first ≤ first + k
      ∧ (∀ j, first ≤ j → j < find_if_not_loop p xs k first → holds_at p xs j true)
      ∧ (find_if_not_loop p xs k first = first + k
          ∨ holds_at p xs (find_if_not_loop p xs k first) false) := by
  intro k
  induction k with
  | zero =>
    intro first _
    simp only [find_if_not_loop]
    exact ⟨Nat.le_refl _, Nat.le_refl _, fun j h1 h2 => by omega, Or.inl rfl⟩
  | succ k ih =>
    intro first h
    have hx : xs[first]? = some xs[first] := List.getElem?_eq_getElem (by omega)
    simp only [find_if_not_loop, hx]
    by_cases hp : p xs[first] = true
    · rw [if_pos hp]
      obtain ⟨h1, h2, h3, h4⟩ := ih (first + 1) (by omega)
      refine ⟨by omega, by omega, ?_, ?_⟩
      · intro j hj1 hj2
        by_cases hj : j = first
        · subst hj; exact ⟨_, hx, hp⟩
        · exact h3 j (by omega) hj2
      · rcases h4 with h4 | h4
        · left; omega
        · right; exact h4
    · rw [if_neg hp]
      exact ⟨Nat.le_refl _, by omega, fun j h1 h2 => by omega,
        Or.inr ⟨_, hx, by simpa using hp⟩⟩

theorem find_if_loop_index (p : α → Bool) (xs : List α) :
    ∀ (k first : Nat), first + k ≤ xs.length →
      first ≤ find_if_loop p xs k first
      ∧ find_if_loop p xs k first ≤ first + k
      ∧ (∀ j, first ≤ j → j < find_if_loop p xs k first → holds_at p xs j false)
      ∧ (find_if_loop p xs k first = first + k
          ∨ holds_at p xs (find_if_loop p xs k first) true) := by
  intro k
  induction k with
  | zero =>
    intro first _
    simp only [find_if_loop]
    exact ⟨Nat.le_refl _, Nat.le_refl _, fun j h1 h2 => by omega, Or.inl rfl⟩
  | succ k ih =>
    intro first h
    have hx : xs[first]? = some xs[first] := List.getElem?_eq_getElem (by omega)
    simp only [find_if_loop, hx]
    by_cases hp : p xs[first] = true
    · rw [if_pos hp]
      exact ⟨Nat.le_refl _, by omega, fun j h1 h2 => by omega, Or.inr ⟨_, hx, hp⟩⟩
    · rw [if_neg hp]
      obtain ⟨h1, h2, h3, h4⟩ := ih (first + 1) (by omega)
      refine ⟨by omega, by omega, ?_, ?_⟩
      · intro j hj1 hj2
        by_cases hj : j = first
        · subst hj; exact ⟨_, hx, by simpa using hp⟩
        · exact h3 j (by omega) hj2
      · rcases h4 with h4 | h4
        · left; omega
        · right; exact h4

/-- `find_if_not` from `a` to the end: the elements it passes satisfy the
predicate and it stops at the end or at an element failing it. -/
theorem find_if_not_index (p : α → Bool) (xs : List α) (a : Nat) (h : a ≤ xs.length) :
    a ≤ find_if_not p xs a xs.length ∧ find_if_not p xs a xs.length ≤ xs.length
    ∧ (∀ j, a ≤ j → j < find_if_not p xs a xs.length → holds_at p xs j true)
    ∧ (find_if_not p xs a xs.length = xs.length
        ∨ holds_at p xs (find_if_not p xs a xs.length) false) := by
  have := find_if_not_loop_index p xs (xs.length - a) a (by omega)
  rw [show a + (xs.length - a) = xs.length by omega] at this
  exact this

theorem find_if_index (p : α → Bool) (xs : List α) (a : Nat) (h : a ≤ xs.length) :
    a ≤ find_if p xs a xs.length ∧ find_if p xs a xs.length ≤ xs.length
    ∧ (∀ j, a ≤ j → j < find_if p xs a xs.length → holds_at p xs j false)
    ∧ (find_if p xs a xs.length = xs.length
        ∨ holds_at p xs (find_if p xs a xs.length) true) := by
  have := find_if_loop_index p xs (xs.length - a) a (by omega)
  rw [show a + (xs.length - a) = xs.length by omega] at this
  exact this

/-- The search `(a == last) ? last : find_if(next(a), last, pred)` from a
position `a` that is the end or holds an element failing the predicate. -/
theorem skip_find_if_index (p : α → Bool) (xs : List α) (a : Nat) (h : a ≤ xs.length)
    (ha : a = xs.length ∨ holds_at p xs a false) :
    a ≤ (if a = xs.length then xs.length else find_if p xs (a + 1) xs.length)
    ∧ (if a = xs.length then xs.length else find_if p xs (a + 1) xs.length) ≤ xs.length
    ∧ (∀ j, a ≤ j → j < (if a = xs.length then xs.length else find_if p xs (a + 1) xs.length)
        → holds_at p xs j false)
    ∧ ((if a = xs.length then xs.length else find_if p xs (a + 1) xs.length) = xs.length
        ∨ holds_at p xs (if a = xs.length then xs.length
            else find_if p xs (a + 1) xs.length) true)
    ∧ (a < (if a = xs.length then xs.length else find_if p xs (a + 1) xs.length)
        ↔ a ≠ xs.length) := by
  by_cases hl : a = xs.length
  · simp only [hl, if_true]
    exact ⟨Nat.le_refl _, Nat.le_refl _, fun j h1 h2 => by omega, Or.inl trivial, by simp⟩
  · simp only [hl, if_false]
    obtain ⟨h1, h2, h3, h4⟩ := find_if_index p xs (a + 1) (by omega)
    refine ⟨by omega, h2, ?_, h4, ?_⟩
    · intro j hj1 hj2
      by_cases hj : j = a
      · subst hj
        rcases ha with ha | ha
        · exact absurd ha hl
        · exact ha
      · exact h3 j (by omega) hj2
    · constructor
      · intro _; exact fun h => hl h
      · intro _; omega

theorem skip_find_if_not_index (p : α → Bool) (xs : List α) (a : Nat) (h : a ≤ xs.length)
    (ha : a = xs.length ∨ holds_at p xs a true) :
    a ≤ (if a = xs.length then xs.length else find_if_not p xs (a + 1) xs.length)
    ∧ (if a = xs.length then xs.length else find_if_not p xs (a + 1) xs.length) ≤ xs.length
    ∧ (∀ j, a ≤ j
        → j < (if a = xs.length then xs.length else find_if_not p xs (a + 1) xs.length)
        → holds_at p xs j true)
    ∧ ((if a = xs.length then xs.length else find_if_not p xs (a + 1) xs.length) = xs.length
        ∨ holds_at p xs (if a = xs.length then xs.length
            else find_if_not p xs (a + 1) xs.length) false)
    ∧ (a < (if a = xs.length then xs.length else find_if_not p xs (a + 1) xs.length)
        ↔ a ≠ xs.length) := by
  by_cases hl : a = xs.length
  · simp only [hl, if_true]
    exact ⟨Nat.le_refl _, Nat.le_refl _, fun j h1 h2 => by omega, Or.inl trivial, by simp⟩
  · simp only [hl, if_false]
    obtain ⟨h1, h2, h3, h4⟩ := find_if_not_index p xs (a + 1) (by omega)
    refine ⟨by omega, h2, ?_, h4, ?_⟩
    · intro j hj1 hj2
      by_cases hj : j = a
      · subst hj
        rcases ha with ha | ha
        · exact absurd ha hl
        · exact ha
      · exact h3 j (by omega) hj2
    · constructor
      · intro _; exact fun h => hl h
      · intro _; omega

/-- The roles of the cursors of one step of the sweep. -/
theorem natural_step_roles (p : α → Bool) (xs : List α) (next : Nat)
    (h : next < xs.length) :
    ∃ l m r next1, natural_step p 0 xs.length xs next = (l, m, r, next1)
      ∧ (if next = 0 then next else next + 1) ≤ l ∧ l ≤ m ∧ m ≤ r ∧ r ≤ next1
      ∧ next1 ≤ xs.length
      ∧ (∀ j, (if next = 0 then next else next + 1) ≤ j → j < l → holds_at p xs j true)
      ∧ (l = xs.length ∨ holds_at p xs l false)
      ∧ (∀ j, l ≤ j → j < m → holds_at p xs j false)
      ∧ (m = xs.length ∨ holds_at p xs m true)
      ∧ (∀ j, m ≤ j → j < r → holds_at p xs j true)
      ∧ (r = xs.length ∨ holds_at p xs r false)
      ∧ (m ≠ r ↔ l < m ∧ m < r) := by
  obtain ⟨a1, a2, a3, a4⟩ := find_if_not_index p xs (if next = 0 then next else next + 1)
    (by split <;> omega)
  obtain ⟨b1, b2, b3, b4, b5⟩ := skip_find_if_index p xs _ a2 a4
  obtain ⟨c1, c2, c3, c4, c5⟩ := skip_find_if_not_index p xs _ b2 b4
  obtain ⟨d1, d2, _, _, _⟩ := skip_find_if_index p xs _ c2 c4
  refine ⟨_, _, _, _, rfl, a1, b1, c1, d1, d2, a3, a4, b3, b4, c3, c4, ?_⟩
  constructor
  · intro hne
    have hlt := Nat.lt_of_le_of_ne c1 hne
    have hm := c5.mp hlt
    refine ⟨?_, hlt⟩
    apply b5.mpr
    intro hl
    apply hm
    simp only [hl, if_true]
  · intro hlt; omega

/-- Claim C17, as the code has it: in an inner step of the sweep of
`stable_partition_natural_n`, `l` is the end of the current run of elements
satisfying the predicate (the start of a run of failing elements, or the end
of the range), `[l, m)` is a run of elements that all fail the predicate,
`[m, r)` is the following run of elements that all satisfy it, and the
rotation is applied exactly when `m != r`, that is when both `[l, m)` and
`[m, r)` are non-empty. -/
theorem C17_cursor_roles (p : α → Bool) (xs : List α) (next : Nat)
    (h : next < xs.length) :
    ∃ l m r next1, natural_step p 0 xs.length xs next = (l, m, r, next1)
      ∧ (if next = 0 then next else next + 1) ≤ l ∧ l ≤ m ∧ m ≤ r ∧ r ≤ next1
      ∧ next1 ≤ xs.length
      ∧ (∀ j, (if next = 0 then next else next + 1) ≤ j → j < l → holds_at p xs j true)
      ∧ (l = xs.length ∨ holds_at p xs l false)
      ∧ (∀ j, l ≤ j → j < m → holds_at p xs j false)
      ∧ (m = xs.length ∨ holds_at p xs m true)
      ∧ (∀ j, m ≤ j → j < r → holds_at p xs j true)
      ∧ (r = xs.length ∨ holds_at p xs r false)
      ∧ (m ≠ r ↔ l < m ∧ m < r)
      ∧ ∀ fuel change, natural_sweep p 0 xs.length (fuel + 1) xs next change
          = (if next1 ≠ xs.length then
              natural_sweep p 0 xs.length fuel (if m ≠ r then rotate xs l m r else xs) next1
                (if m ≠ r then true else change)
            else
              some ((if m ≠ r then rotate xs l m r else xs), l, m, r,
                (if m ≠ r then true else change))) := by
  obtain ⟨l, m, r, next1, hs, h1, h2, h3, h4, h5, h6, h7, h8, h9, h10, h11, h12⟩ :=
    natural_step_roles p xs next h
  refine ⟨l, m, r, next1, hs, h1, h2, h3, h4, h5, h6, h7, h8, h9, h10, h11, h12, ?_⟩
  intro fuel change
  rw [natural_sweep_step, hs]

/-- Witness of C17: the first step of the sweep on false, true, false, true,
where the cursors are `(l, m, r) = (0, 1, 2)` and the next cursor is 3: the
run `[l, m)` holds the false element 0, the run `[m, r)` the true element 1,
and the rotation is applied. -/
theorem C17_cursor_roles_witness :
    0 < example_items.length
    ∧ natural_step Item.value 0 example_items.length example_items 0 = (0, 1, 2, 3)
    ∧ ∃ l m r next1,
      natural_step Item.value 0 example_items.length example_items 0 = (l, m, r, next1)
      ∧ (if 0 = 0 then 0 else 0 + 1) ≤ l ∧ l ≤ m ∧ m ≤ r ∧ r ≤ next1
      ∧ next1 ≤ example_items.length
      ∧ (∀ j, (if 0 = 0 then 0 else 0 + 1) ≤ j → j < l
          → holds_at Item.value example_items j true)
      ∧ (l = example_items.length ∨ holds_at Item.value example_items l false)
      ∧ (∀ j, l ≤ j → j < m → holds_at Item.value example_items j false)
      ∧ (m = example_items.length ∨ holds_at Item.value example_items m true)
      ∧ (∀ j, m ≤ j → j < r → holds_at Item.value example_items j true)
      ∧ (r = example_items.length ∨ holds_at Item.value example_items r false)
      ∧ (m ≠ r ↔ l < m ∧ m < r)
      ∧ ∀ fuel change,
          natural_sweep Item.value 0 example_items.length (fuel + 1) example_items 0 change
          = (if next1 ≠ example_items.length then
              natural_sweep Item.value 0 example_items.length fuel
                (if m ≠ r then rotate example_items l m r else example_items) next1
                (if m ≠ r then true else change)
            else
              some ((if m ≠ r then rotate example_items l m r else example_items), l, m, r,
                (if m ≠ r then true else change))) :=
  ⟨by decide, by decide, C17_cursor_roles Item.value example_items 0 (by decide)⟩

/-- Counterexample to C17 as stated: in the first step of the sweep on
`[(0,false),(1,true)]` the cursors are `l = 0`, `m = 1`, `r = 2`; the element
of `[l, m)` fails the predicate and the element of `[m, r)` satisfies it. -/
theorem C17_counterexample :
    natural_step Item.value 0 2 [Item.mk 0 false, Item.mk 1 true] 0 = (0, 1, 2, 2)
    ∧ ¬ (∀ j, 0 ≤ j → j < 1 → holds_at Item.value [Item.mk 0 false, Item.mk 1 true] j true)
    ∧ ¬ (∀ j, 1 ≤ j → j < 2
          → holds_at Item.value [Item.mk 0 false, Item.mk 1 true] j false) := by
  refine ⟨by decide, ?_, ?_⟩
  · intro h
    obtain ⟨x, hx, hp⟩ := h 0 (by omega) (by omega)
    simp only [List.getElem?_cons_zero, Option.some.injEq] at hx
    subst hx
    cases hp
  · intro h
    obtain ⟨x, hx, hp⟩ := h 1 (by omega) (by omega)
    simp only [List.getElem?_cons_succ, List.getElem?_cons_zero, Option.some.injEq] at hx
    subst hx
    cases hp

/-! ## Progress of a sweep -/

theorem descents_cons_true (p : α → Bool) (x : α) (X : List α) (hx : p x = true) :
    descents p (x :: X) = descents p X := by
  cases X with
  | nil => rfl
  | cons y Y => simp [descents, hx]

theorem descents_cons_false (p : α → Bool) (x : α) (X : List α)
    (hX : ∀ y Y, X = y :: Y → p y = false) :
    descents p (x :: X) = descents p X := by
  cases X with
  | nil => rfl
  | cons y Y => simp [descents, hX y Y rfl]

theorem descents_true_append (p : α → Bool) (T X : List α) (hT : ∀ x ∈ T, p x = true) :
    descents p (T ++ X) = descents p X := by
  induction T with
  | nil => rfl
  | cons x T ih =>
    rw [List.cons_append, descents_cons_true p x _ (hT x (List.mem_cons_self _ _)),
      ih (fun y hy => hT y (List.mem_cons_of_mem _ hy))]

theorem descents_false_append (p : α → Bool) (F X : List α) (hF : ∀ x ∈ F, p x = false)
    (hX : ∀ y Y, X = y :: Y → p y = false) :
    descents p (F ++ X) = descents p X := by
  induction F with
  | nil => rfl
  | cons x F ih =>
    have hF' : ∀ y ∈ F, p y = false := fun y hy => hF y (List.mem_cons_of_mem _ hy)
    rw [List.cons_append, descents_cons_false p x _ ?_, ih hF']
    intro y Y h
    cases F with
    | nil => exact hX y Y h
    | cons z F1 =>
      simp only [List.cons_append, List.cons.injEq] at h
      rw [← h.1]; exact hF' z (List.mem_cons_self _ _)

theorem descents_false_append_true (p : α → Bool) (F : List α) (y : α) (Y : List α)
    (hF : ∀ x ∈ F, p x = false) (hne : F ≠ []) (hy : p y = true) :
    descents p (F ++ y :: Y) = 1 + descents p Y := by
  induction F with
  | nil => exact absurd rfl hne
  | cons x F ih =>
    have hx := hF x (List.mem_cons_self _ _)
    cases F with
    | nil =>
      rw [← descents_cons_true p y Y hy]
      simp [descents, hx, hy]
    | cons z F1 =>
      have hz := hF z (List.mem_cons_of_mem _ (List.mem_cons_self _ _))
      have := ih (fun w hw => hF w (List.mem_cons_of_mem _ hw)) (by simp)
      rw [← this]
      simp [descents, hz]

theorem descents_all_false (p : α → Bool) (F : List α) (hF : ∀ x ∈ F, p x = false) :
    descents p F = 0 := by
  have := descents_false_append p F [] hF (fun y Y h => by cases h)
  simpa [descents] using this

theorem descents_le_length (p : α → Bool) : ∀ xs : List α, descents p xs ≤ xs.length
  | [] => by simp [descents]
  | [_] => by simp [descents]
  | x :: y :: rest => by
    have := descents_le_length p (y :: rest)
    simp only [descents, List.length_cons] at this ⊢
    split <;> omega

/-- One sweep from a cursor state halves the number of descents of the part
of the sequence that it still has to scan, leaves what it has scanned as it
is, and sets `change` exactly when that part has a descent. -/
theorem natural_sweep_descents (p : α → Bool) :
    ∀ (fuel : Nat) (pre rest : List α) (last next : Nat) (change : Bool),
      last = pre.length + rest.length →
      (if next = 0 then next else next + 1) = pre.length →
      rest.length < fuel →
      ∃ rest1 l m r ch,
        natural_sweep p 0 last fuel (pre ++ rest) next change
          = some (pre ++ rest1, l, m, r, ch)
        ∧ rest1.length = rest.length
        ∧ descents p rest1 = descents p rest / 2
        ∧ ch = (change || decide (1 ≤ descents p rest)) := by
  intro fuel
  induction fuel with
  | zero => intro pre rest last next change _ _ h; omega
  | succ fuel ih =>
    intro pre rest last next change hlast hnext hfuel
    obtain ⟨T, F, T1, F1, R, rfl, hT, hF, hT1, hF1, m1, m2, m3, hR⟩ := runs_decomp p rest
    simp only [List.length_append] at hlast hfuel
    obtain ⟨c1, c2, c3, c4⟩ := sweep_cursors p pre T F T1 F1 R last hlast hT hF hT1 hF1
      m1 m2 m3 hR
    have hrot := sweep_rotate pre T F T1 (F1 ++ R)
    unfold natural_sweep
    simp only [hnext, c1, c2, c3, c4, hrot]
    have hFF : ∀ x ∈ F ++ F1, p x = false := by
      intro x hx
      rcases List.mem_append.mp hx with h | h
      · exact hF x h
      · exact hF1 x h
    cases R with
    | nil =>
      simp only [List.length_nil, Nat.add_zero] at hlast
      rw [if_neg (by omega)]
      refine ⟨T ++ (T1 ++ (F ++ (F1 ++ []))), _, _, _, _, rfl,
        by simp only [List.length_append]; omega, ?_, ?_⟩
      · rw [descents_true_append p T _ hT, descents_true_append p T1 _ hT1,
          descents_true_append p T _ hT]
        have e1 : descents p (F ++ (F1 ++ [])) = 0 := by
          rw [List.append_nil]; exact descents_all_false p _ hFF
        rw [e1]
        cases T1 with
        | nil =>
          simp only [m2 rfl, List.nil_append, List.append_nil, descents_all_false p F hF]
        | cons y T2 =>
          have hne : F ≠ [] := fun h => by simpa using m1 h
          rw [List.cons_append, descents_false_append_true p F y _ hF hne
            (hT1 y (List.mem_cons_self _ _)),
            descents_true_append p T2 _ (fun x hx => hT1 x (List.mem_cons_of_mem _ hx)),
            List.append_nil, descents_all_false p F1 hF1]
      · rw [descents_true_append p T _ hT]
        cases T1 with
        | nil =>
          simp [m2 rfl, descents_all_false p F hF]
        | cons y T2 =>
          have hne : F ≠ [] := fun h => by simpa using m1 h
          rw [List.cons_append, descents_false_append_true p F y _ hF hne
            (hT1 y (List.mem_cons_self _ _))]
          simp only [List.length_cons]
          rw [if_pos (by omega)]
          simp
    | cons t R1 =>
      have ht : p t = true := hR t R1 rfl
      have hF1ne : F1 ≠ [] := fun h => by simpa using m3 h
      have hT1ne : T1 ≠ [] := fun h => hF1ne (m2 h)
      have hFne : F ≠ [] := fun h => hT1ne (m1 h)
      have hpos1 : 0 < T1.length := List.length_pos.mpr hT1ne
      have hpos3 : 0 < F1.length := List.length_pos.mpr hF1ne
      simp only [List.length_cons] at hlast hfuel
      rw [if_pos (by omega)]
      have hch : (if pre.length + T.length + F.length
          ≠ pre.length + T.length + F.length + T1.length then true else change) = true := by
        rw [if_pos (by omega)]
      rw [hch]
      have e : pre ++ (T ++ (T1 ++ (F ++ (F1 ++ t :: R1))))
          = (pre ++ (T ++ (T1 ++ (F ++ (F1 ++ [t]))))) ++ R1 := by
        simp only [List.append_assoc, List.singleton_append]
      have r := ih (pre ++ (T ++ (T1 ++ (F ++ (F1 ++ [t]))))) R1 last
        (pre.length + T.length + F.length + T1.length + F1.length) true
        (by simp only [List.length_append, List.length_singleton]; omega)
        (by
          rw [if_neg (by omega)]
          simp only [List.length_append, List.length_singleton]; omega)
        (by omega)
      rw [← e] at r
      obtain ⟨rest1, l, m, r1, ch, hres, hl, hd, hc⟩ := r
      refine ⟨T ++ (T1 ++ (F ++ (F1 ++ (t :: rest1)))), l, m, r1, ch, ?_, ?_, ?_, ?_⟩
      · rw [hres]
        simp only [List.append_assoc, List.singleton_append]
      · simp only [List.length_append, List.length_cons, hl]; omega
      · obtain ⟨y, T2, rfl⟩ := List.exists_cons_of_ne_nil hT1ne
        have hy := hT1 y (List.mem_cons_self _ _)
        have hT2 : ∀ x ∈ T2, p x = true := fun x hx => hT1 x (List.mem_cons_of_mem _ hx)
        have a1 : descents p (T ++ (y :: T2 ++ (F ++ (F1 ++ t :: rest1))))
            = 1 + descents p rest1 := by
          rw [descents_true_append p T _ hT, descents_true_append p _ _ hT1,
            ← List.append_assoc,
            descents_false_append_true p (F ++ F1) t rest1 hFF (by simp [hFne]) ht]
        have a2 : descents p (T ++ (F ++ (y :: T2 ++ (F1 ++ t :: R1))))
            = 2 + descents p R1 := by
          rw [descents_true_append p T _ hT, List.cons_append,
            descents_false_append_true p F y _ hF hFne hy,
            descents_true_append p T2 _ hT2,
            descents_false_append_true p F1 t R1 hF1 hF1ne ht]
          omega
        rw [a1, a2, hd]; omega
      · obtain ⟨y, T2, rfl⟩ := List.exists_cons_of_ne_nil hT1ne
        have hy := hT1 y (List.mem_cons_self _ _)
        rw [hc, descents_true_append p T _ hT, List.cons_append,
          descents_false_append_true p F y _ hF hFne hy]
        simp

/-! ## The number of sweeps -/

/-- The counting loop erased of its count is the loop. -/
theorem natural_loop_count_snd (p : α → Bool) (first n : Nat) :
    ∀ (fuel : Nat) (xs : List α),
      (natural_loop_count p first n fuel xs).map Prod.snd = natural_loop p first n fuel xs := by
  intro fuel
  induction fuel with
  | zero => intro xs; rfl
  | succ fuel ih =>
    intro xs
    simp only [natural_loop_count, natural_loop]
    cases natural_sweep p first (first + n) (n + 1) xs first false with
    | none => rfl
    | some res =>
      obtain ⟨xs1, l, m, r, change⟩ := res
      simp only []
      cases change with
      | false => rfl
      | true =>
        simp only [if_true]
        rw [← ih xs1]
        cases natural_loop_count p first n fuel xs1 <;> rfl

theorem sweep_count_step (k : Nat) (h : 1 ≤ k) :
    (if k / 2 = 0 then 1 else Nat.log 2 (k / 2) + 2) + 1 = Nat.log 2 k + 2 := by
  by_cases h0 : k / 2 = 0
  · have hk : k = 1 := by omega
    subst hk
    simp
  · rw [if_neg h0]
    have h1 := Nat.log_div_base 2 k
    have h2 : 0 < Nat.log 2 k := Nat.log_pos (by decide) (by omega)
    omega

/-- With `k` descents the loop makes one sweep when `k = 0` and
`log2 k + 2` sweeps otherwise. -/
theorem natural_loop_count_spec (p : α → Bool) (n : Nat) :
    ∀ (fuel : Nat) (xs : List α), xs.length = n → descents p xs < fuel →
      ∃ res, natural_loop_count p 0 n fuel xs
        = some (if descents p xs = 0 then 1 else Nat.log 2 (descents p xs) + 2, res) := by
  intro fuel
  induction fuel with
  | zero => intro xs _ h; omega
  | succ fuel ih =>
    intro xs hn hd
    obtain ⟨rest1, l, m, r, ch, hres, hl, hdes, hch⟩ :=
      natural_sweep_descents p (n + 1) [] xs (0 + n) 0 false (by simp [hn]) rfl (by omega)
    simp only [List.nil_append, Bool.false_or] at hres hch
    simp only [natural_loop_count, hres]
    by_cases h0 : descents p xs = 0
    · have : ch = false := by rw [hch, h0]; rfl
      subst this
      simp only [Bool.false_eq_true, if_false, h0, if_true]
      exact ⟨_, rfl⟩
    · have : ch = true := by rw [hch]; simpa using Nat.one_le_iff_ne_zero.mpr h0
      subst this
      obtain ⟨res, hr⟩ := ih rest1 (by omega) (by omega)
      simp only [if_true, hr, hdes, if_neg h0]
      rw [sweep_count_step _ (by omega)]
      exact ⟨_, rfl⟩

theorem descents_range' (n : Nat) :
    ∀ s, descents Item.value ((List.range' s n).map (fun i => Item.mk i (i % 2 != 0)))
      = if s % 2 = 0 then n / 2 else (n - 1) / 2 := by
  induction n with
  | zero => intro s; simp [descents]
  | succ n ih =>
    intro s
    cases n with
    | zero => simp [descents]
    | succ m =>
      have h := ih (s + 1)
      rw [List.range'_succ] at h
      rw [List.range'_succ, List.range'_succ]
      simp only [List.map_cons, descents] at h ⊢
      rw [h]
      rcases Nat.mod_two_eq_zero_or_one s with hs | hs
      · have hs1 : (s + 1) % 2 = 1 := by omega
        simp [hs, hs1]
        omega
      · have hs1 : (s + 1) % 2 = 0 := by omega
        simp [hs, hs1]

theorem descents_alternating (n : Nat) : descents Item.value (alternating n) = n / 2 := by
  have := descents_range' n 0
  simpa [alternating, List.range_eq_range'] using this

theorem natural_sweeps_spec (p : α → Bool) (xs : List α) (h2 : 2 ≤ xs.length) :
    natural_sweeps p xs
      = some (if descents p xs = 0 then 1 else Nat.log 2 (descents p xs) + 2) := by
  have h1 := descents_le_length p xs
  have h3 : xs.length ≤ xs.length * xs.length := Nat.le_mul_self _
  obtain ⟨res, hr⟩ := natural_loop_count_spec p xs.length (xs.length * xs.length + 1) xs rfl
    (by omega)
  simp only [natural_sweeps]
  rw [if_neg (by omega), if_neg (by omega), hr]
  rfl

theorem natural_sweeps_alternating (n : Nat) (h2 : 2 ≤ n) :
    natural_sweeps Item.value (alternating n) = some (Nat.log 2 (n / 2) + 2) := by
  have hlen : (alternating n).length = n := by simp [alternating]
  rw [natural_sweeps_spec _ _ (by omega), descents_alternating, if_neg (by omega)]

theorem pow_bound (d : Nat) : d * (d + 5) + 2 * d + 8 ≤ 2 ^ (d + 4) := by
  induction d with
  | zero => decide
  | succ d ih =>
    have e : 2 ^ (d + 1 + 4) = 2 * 2 ^ (d + 4) := by rw [pow_succ]; ring
    rw [e]
    nlinarith

/-- Claim C18, as the code has it: on the strictly alternating input of
length `n >= 2` (false, true, false, true, ...) there are `floor(n / 2)`
adjacent (false, true) pairs, every sweep of `stable_partition_natural_n`
halves their number, and the number of full sweeps is `floor(log2 n) + 1`:
it grows as the logarithm of `n`. -/
theorem C18_alternating_sweeps (n : Nat) (h2 : 2 ≤ n) :
    descents Item.value (alternating n) = n / 2
    ∧ (∀ zs : List Item, ∃ ys l m r ch,
        natural_sweep Item.value 0 zs.length (zs.length + 1) zs 0 false
          = some (ys, l, m, r, ch)
        ∧ descents Item.value ys = descents Item.value zs / 2)
    ∧ natural_sweeps Item.value (alternating n) = some (Nat.log 2 n + 1) := by
  refine ⟨descents_alternating n, ?_, ?_⟩
  · intro zs
    obtain ⟨rest1, l, m, r, ch, hres, _, hdes, _⟩ :=
      natural_sweep_descents Item.value (zs.length + 1) [] zs zs.length 0 false
        (by simp) rfl (by omega)
    exact ⟨rest1, l, m, r, ch, by simpa using hres, hdes⟩
  · rw [natural_sweeps_alternating n h2]
    have h1 := Nat.log_div_base 2 n
    have h3 : 0 < Nat.log 2 n := Nat.log_pos (by decide) h2
    congr 1
    omega

/-- Witness of C18: the alternating input of length 8 takes 4 sweeps. -/
theorem C18_alternating_sweeps_witness :
    2 ≤ 8 ∧ natural_sweeps Item.value (alternating 8) = some (Nat.log 2 8 + 1) :=
  ⟨by decide, (C18_alternating_sweeps 8 (by decide)).2.2⟩

/-- Counterexample to C18 as stated: the number of sweeps on the alternating
input does not grow linearly in `n`; there is no `d` with
`n <= d * sweeps(n)` for every `n >= 2`. -/
theorem C18_counterexample :
    ¬ ∃ d : Nat, ∀ n, 2 ≤ n →
      ∃ s, natural_sweeps Item.value (alternating n) = some s ∧ n ≤ d * s := by
  rintro ⟨d, h⟩
  have hpow : 2 ≤ 2 ^ (d + 4) := by
    have := pow_bound d
    omega
  obtain ⟨s, hs, hle⟩ := h (2 ^ (d + 4)) hpow
  rw [natural_sweeps_alternating _ hpow] at hs
  have hdiv : 2 ^ (d + 4) / 2 = 2 ^ (d + 3) := by
    rw [show d + 4 = (d + 3) + 1 by omega, pow_succ]
    exact Nat.mul_div_cancel _ (by decide)
  rw [hdiv, Nat.log_pow (by decide)] at hs
  have hs' : s = d + 3 + 2 := by
    simp only [Option.some.injEq] at hs
    exact hs.symm
  subst hs'
  have := pow_bound d
  nlinarith

/-- Claim C19: one full left-to-right sweep of `stable_partition_natural_n`
on a sequence with `k` adjacent positions `(j, j + 1)` whose elements fail and
satisfy the predicate leaves a sequence with exactly `floor(k / 2)` such
positions, and it reports a change if and only if `k >= 1`. -/
theorem C19_sweep_progress (p : α → Bool) (xs : List α) :
    ∃ ys l m r ch,
      natural_sweep p 0 xs.length (xs.length + 1) xs 0 false = some (ys, l, m, r, ch)
      ∧ descents p ys = descents p xs / 2
      ∧ (ch = true ↔ 1 ≤ descents p xs) := by
  obtain ⟨rest1, l, m, r, ch, hres, _, hdes, hch⟩ :=
    natural_sweep_descents p (xs.length + 1) [] xs xs.length 0 false (by simp) rfl (by omega)
  refine ⟨rest1, l, m, r, ch, by simpa using hres, hdes, ?_⟩
  rw [hch]
  simp

/-! ## The natural-number embedding of the block-width arithmetic -/

/-- The chunk size and the exit test written with natural numbers in
`bottomup_pass`, `bsearch_pass` and the outer loops are the integer ones of
`chunk_limit` and `width_loop_outer`, for `i < n` and `width <= n`. -/
theorem chunk_limit_nat (n i w : Nat) (hin : i < n) (hw : w ≤ n) :
    (chunk_limit id (n : Int) (i : Int) (w : Int)).1
        = ((if w > n - i then n - i else if w > n - i - w then n - i else 2 * w : Nat) : Int)
    ∧ ((w : Int) ≥ (n : Int) - (w : Int) ↔ w ≥ n - w) := by
  constructor
  · simp only [chunk_limit, id]
    by_cases h1 : w > n - i
    · rw [if_pos h1, if_pos (by omega)]
      push_cast [Nat.cast_sub (Nat.le_of_lt hin)]
      rfl
    · rw [if_neg h1, if_neg (by omega)]
      by_cases h2 : w > n - i - w
      · rw [if_pos h2, if_pos (by omega)]
        push_cast [Nat.cast_sub (Nat.le_of_lt hin)]
        rfl
      · rw [if_neg h2, if_neg (by omega)]
        push_cast
        rfl
  · omega

/-! ## The record of the passes of the bottom-up variants -/

theorem bottomup_pass_log_eq (p : α → Bool) (n w : Nat) :
    ∀ (fuel : Nat) (xs : List α) (next i : Nat) (lmr : Option (Nat × Nat × Nat))
      (steps : List (Nat × Nat × Option (Nat × Nat × Nat))),
      bottomup_pass_log p n w fuel xs next i lmr steps
        = block_pass_log (fun ys a b => some (find_if_not p ys a b)) n w fuel xs next i lmr
            steps := by
  intro fuel
  induction fuel with
  | zero => intros; rfl
  | succ fuel ih =>
    intro xs next i lmr steps
    simp only [bottomup_pass_log, block_pass_log, ih]

theorem bsearch_pass_log_eq (p : α → Bool) (n w : Nat) :
    ∀ (fuel : Nat) (xs : List α) (next i : Nat) (lmr : Option (Nat × Nat × Nat))
      (steps : List (Nat × Nat × Option (Nat × Nat × Nat))),
      bsearch_pass_log p n w fuel xs next i lmr steps
        = block_pass_log (partition_point p) n w fuel xs next i lmr steps := by
  intro fuel
  induction fuel with
  | zero => intros; rfl
  | succ fuel ih =>
    intro xs next i lmr steps
    simp only [bsearch_pass_log, block_pass_log, ih]

theorem bottomup_loop_log_eq (p : α → Bool) (first n : Nat) :
    ∀ (fuel : Nat) (xs : List α) (w : Nat) (lmr : Option (Nat × Nat × Nat))
      (passes : List (Nat × List (Nat × Nat × Option (Nat × Nat × Nat)))),
      bottomup_loop_log p first n fuel xs w lmr passes
        = block_loop_log (fun ys a b => some (find_if_not p ys a b)) first n fuel xs w lmr
            passes := by
  intro fuel
  induction fuel with
  | zero => intros; rfl
  | succ fuel ih =>
    intro xs w lmr passes
    simp only [bottomup_loop_log, block_loop_log, ih, bottomup_pass_log_eq]

theorem bsearch_loop_log_eq (p : α → Bool) (first n : Nat) :
    ∀ (fuel : Nat) (xs : List α) (w : Nat) (lmr : Option (Nat × Nat × Nat))
      (passes : List (Nat × List (Nat × Nat × Option (Nat × Nat × Nat)))),
      bsearch_loop_log p first n fuel xs w lmr passes
        = block_loop_log (partition_point p) first n fuel xs w lmr passes := by
  intro fuel
  induction fuel with
  | zero => intros; rfl
  | succ fuel ih =>
    intro xs w lmr passes
    simp only [bsearch_loop_log, block_loop_log, ih, bsearch_pass_log_eq]

/-- The recording pass erased of its record is the pass. -/
theorem block_pass_log_erase (fnd : List α → Nat → Nat → Option Nat) (n w : Nat) :
    ∀ (fuel : Nat) (xs : List α) (next i : Nat) (lmr : Option (Nat × Nat × Nat))
      (steps : List (Nat × Nat × Option (Nat × Nat × Nat))),
      (block_pass_log fnd n w fuel xs next i lmr steps).map (fun r => (r.1, r.2.1))
        = block_pass fnd n w fuel xs next i lmr := by
  intro fuel
  induction fuel with
  | zero =>
    intro xs next i lmr steps
    simp only [block_pass_log, block_pass]
    split <;> rfl
  | succ fuel ih =>
    intro xs next i lmr steps
    simp only [block_pass_log, block_pass]
    by_cases hi : i < n
    · simp only [hi, if_true]
      generalize (if w > n - i then n - i else if w > n - i - w then n - i else 2 * w) = limit
      by_cases hl : limit > w
      · simp only [hl, if_true]
        cases fnd xs next (next + w) with
        | none => rfl
        | some l =>
          simp only []
          cases fnd xs (next + w) (next + w + (limit - w)) with
          | none => rfl
          | some r => exact ih _ _ _ _ _
      · simp only [hl, if_false]
        exact ih _ _ _ _ _
    · simp only [hi, if_false]
      rfl

/-- The recording loop erased of its record is the loop. -/
theorem block_loop_log_erase (fnd : List α → Nat → Nat → Option Nat) (first n : Nat) :
    ∀ (fuel : Nat) (xs : List α) (w : Nat) (lmr : Option (Nat × Nat × Nat))
      (passes : List (Nat × List (Nat × Nat × Option (Nat × Nat × Nat)))),
      (block_loop_log fnd first n fuel xs w lmr passes).map (fun r => (r.1, r.2.1))
        = block_loop fnd first n fuel xs w lmr := by
  intro fuel
  induction fuel with
  | zero => intros; rfl
  | succ fuel ih =>
    intro xs w lmr passes
    have e := block_pass_log_erase fnd n w n xs first 0 lmr []
    simp only [block_loop_log, block_loop]
    cases h : block_pass_log fnd n w n xs first 0 lmr [] with
    | none =>
      rw [h] at e
      rw [← e]; rfl
    | some res =>
      obtain ⟨xs1, lmr1, steps⟩ := res
      rw [h] at e
      rw [← e]
      simp only [Option.map_some']
      split
      · rfl
      · exact ih _ _ _ _

theorem block_pass_log_of_pass (fnd : List α → Nat → Nat → Option Nat) (n w fuel : Nat)
    (xs : List α) (next i : Nat) (lmr : Option (Nat × Nat × Nat))
    (steps : List (Nat × Nat × Option (Nat × Nat × Nat)))
    (a : List α) (b : Option (Nat × Nat × Nat))
    (h : block_pass fnd n w fuel xs next i lmr = some (a, b)) :
    ∃ st, block_pass_log fnd n w fuel xs next i lmr steps = some (a, b, st) := by
  have e := block_pass_log_erase fnd n w fuel xs next i lmr steps
  rw [h] at e
  cases hx : block_pass_log fnd n w fuel xs next i lmr steps with
  | none => rw [hx] at e; cases e
  | some res =>
    obtain ⟨x, y, st⟩ := res
    rw [hx] at e
    simp only [Option.map_some', Option.some.injEq, Prod.mk.injEq] at e
    obtain ⟨rfl, rfl⟩ := e
    exact ⟨st, rfl⟩

/-- After `j` passes the recording loop is at width `2 ^ j` and has recorded
the passes of widths `2 ^ 0, ..., 2 ^ (j - 1)`. -/
theorem block_loop_log_reach (p : α → Bool) (fnd : List α → Nat → Nat → Option Nat)
    (hf : ∀ A S C : List α,
      fnd (A ++ (reference_stable_partition p S ++ C)) A.length (A.length + S.length)
        = some (A.length + S.countP p))
    (orig : List α) :
    ∀ j, 2 ^ j < orig.length → ∃ bs lmr recs, Blocks (2 ^ j) bs ∧ bs.flatten = orig
      ∧ recs.map Prod.fst = (List.range j).map (fun i => 2 ^ i)
      ∧ ∀ fuel, block_loop_log fnd 0 orig.length (fuel + j) orig 1 none []
          = block_loop_log fnd 0 orig.length fuel
              ((bs.map (reference_stable_partition p)).flatten) (2 ^ j) lmr recs := by
  intro j
  induction j with
  | zero =>
    intro _
    refine ⟨orig.map (fun x => [x]), none, [], blocks_singletons orig,
      flatten_singletons orig, rfl, ?_⟩
    intro fuel
    rw [flatten_reference_singletons]; rfl
  | succ j ih =>
    intro h
    have hpow : 2 ^ (j + 1) = 2 ^ j + 2 ^ j := by rw [pow_succ]; omega
    have hw : 0 < 2 ^ j := Nat.two_pow_pos _
    obtain ⟨bs, lmr, recs, hB, hfl, hrecs, hloop⟩ := ih (by omega)
    have hpass := block_pass_spec p fnd hf orig.length (2 ^ j) hw orig.length bs [] lmr
      (by rw [← hfl]; exact blocks_length_le (2 ^ j) hw bs hB) hB (by simp [hfl])
    simp only [List.nil_append, List.length_nil] at hpass
    obtain ⟨st, hst⟩ := block_pass_log_of_pass fnd orig.length (2 ^ j) orig.length _ 0 0 lmr []
      _ _ hpass
    refine ⟨pairUp bs, passLMR p (2 ^ j) 0 bs lmr, recs ++ [(2 ^ j, st)], ?_,
      by rw [pairUp_flatten, hfl], ?_, ?_⟩
    · rw [hpow]; exact blocks_pairUp (2 ^ j) hw bs hB
    · rw [List.map_append, hrecs, List.range_succ, List.map_append]; rfl
    · intro fuel
      rw [show fuel + (j + 1) = (fuel + 1) + j by omega, hloop (fuel + 1)]
      simp only [block_loop_log, hst]
      rw [if_neg (by omega), hpow]

/-- The last pass: its record is a single step on the whole range. -/
theorem final_pass_log (p : α → Bool) (fnd : List α → Nat → Nat → Option Nat)
    (hf : ∀ A S C : List α,
      fnd (A ++ (reference_stable_partition p S ++ C)) A.length (A.length + S.length)
        = some (A.length + S.countP p))
    (L R : List α) (w fuel : Nat) (hL : L.length = w) (hR0 : 0 < R.length)
    (hRw : R.length ≤ w) (lmr : Option (Nat × Nat × Nat)) :
    block_pass_log fnd (w + R.length) w (fuel + 1)
        (reference_stable_partition p L ++ reference_stable_partition p R) 0 0 lmr []
      = some (reference_stable_partition p (L ++ R),
          some (L.countP p, w, w + R.countP p),
          [(0, w + R.length, some (L.countP p, w, w + R.countP p))]) := by
  have hlim : (if w > w + R.length - 0 then w + R.length - 0
      else if w > w + R.length - 0 - w then w + R.length - 0 else 2 * w) = w + R.length := by
    split
    · omega
    · split <;> omega
  have f1 := hf [] L (reference_stable_partition p R)
  have f2 := hf (reference_stable_partition p L) R []
  have hm := merge_step p [] L R []
  simp only [List.nil_append, List.append_nil, List.length_nil, Nat.zero_add,
    reference_length, hL] at f1 f2 hm
  have hi : 0 < w + R.length := by omega
  simp only [block_pass_log, hi, if_true, hlim, Nat.zero_add, List.nil_append]
  rw [if_pos (by omega)]
  simp only [f1, show w + (w + R.length - w) = w + R.length by omega, f2, hm]
  have hend : ¬ w + R.length < w + R.length := by omega
  cases fuel with
  | zero => simp only [block_pass_log, hend, if_false]
  | succ fuel => simp only [block_pass_log, hend, if_false]

theorem block_loop_log_final (p : α → Bool) (fnd : List α → Nat → Nat → Option Nat)
    (hf : ∀ A S C : List α,
      fnd (A ++ (reference_stable_partition p S ++ C)) A.length (A.length + S.length)
        = some (A.length + S.countP p))
    (xs : List α) (h2 : 2 ≤ xs.length) (result : Option (Nat × List α))
    (hres : result = some (xs.countP p, reference_stable_partition p xs)) :
    ∃ final lmr passes,
      block_loop_log fnd 0 xs.length xs.length xs 1 none [] = some (final, lmr, passes)
      ∧ block_loop fnd 0 xs.length xs.length xs 1 none = some (final, lmr)
      ∧ final_pass_shape p xs passes lmr result := by
  obtain ⟨k, hk1, hk2, hk3⟩ := final_width xs.length h2
  have hw : 0 < 2 ^ k := Nat.two_pow_pos _
  obtain ⟨bs, lmr0, recs, hB, hfl, hrecs, hloop⟩ := block_loop_log_reach p fnd hf xs k hk1
  obtain ⟨L, R, rfl, hL⟩ := blocks_final (2 ^ k) hw bs hB (by rw [hfl]; exact hk1)
    (by rw [hfl]; omega)
  have hxs : L ++ R = xs := by simpa using hfl
  subst hxs
  have hlen : (L ++ R).length = 2 ^ k + R.length := by rw [List.length_append, hL]
  have hcL : L.countP p ≤ 2 ^ k := by rw [← hL]; exact List.countP_le_length p
  have hcR : R.countP p ≤ R.length := List.countP_le_length p
  obtain ⟨f, hf1⟩ : ∃ f, (L ++ R).length = f + 1 := ⟨(L ++ R).length - 1, by omega⟩
  have hpass := final_pass_log p fnd hf L R (2 ^ k) f hL (by omega) (by omega) lmr0
  rw [← hlen, ← hf1] at hpass
  have hlog : block_loop_log fnd 0 (L ++ R).length (L ++ R).length (L ++ R) 1 none []
      = some (reference_stable_partition p (L ++ R),
          some (L.countP p, 2 ^ k, 2 ^ k + R.countP p),
          recs ++ [(2 ^ k, [(0, (L ++ R).length,
            some (L.countP p, 2 ^ k, 2 ^ k + R.countP p))])]) := by
    have e := hloop ((L ++ R).length - k)
    rw [show (L ++ R).length - k + k = (L ++ R).length by omega] at e
    rw [e]
    obtain ⟨g, hg⟩ : ∃ g, (L ++ R).length - k = g + 1 := ⟨(L ++ R).length - k - 1, by omega⟩
    simp only [hg, block_loop_log, List.map_cons, List.map_nil, List.flatten_cons,
      List.flatten_nil, List.append_nil, hpass]
    rw [if_pos (by omega)]
  refine ⟨_, _, _, hlog, ?_, ?_⟩
  · have e := block_loop_log_erase fnd 0 (L ++ R).length (L ++ R).length (L ++ R) 1 none []
    rw [hlog] at e
    exact e.symm
  · refine ⟨k, L.countP p, 2 ^ k + R.countP p, ?_, ?_, ?_, by omega, by omega, ?_,
      hk1, hcL, by omega, by omega, rfl, ?_, ?_⟩
    · rw [List.map_append, hrecs, List.range_succ, List.map_append]; rfl
    · intro w hw'
      rw [List.map_append, hrecs] at hw'
      simp only [List.map_cons, List.map_nil, List.mem_append, List.mem_map, List.mem_range,
        List.mem_singleton] at hw'
      rcases hw' with ⟨j, hj, rfl⟩ | rfl
      · have := pow_lt_of_lt (L ++ R).length j k hj hk1
        exact ⟨⟨j, rfl⟩, Nat.two_pow_pos _, by omega⟩
      · exact ⟨⟨k, rfl⟩, hw, hk1⟩
    · intro j hj
      have := pow_lt_of_lt (L ++ R).length j k hj hk1
      exact ⟨by omega, this⟩
    · simp
    · rw [hres, List.countP_append]
      simp only [reference_stable_partition, Option.some.injEq, Prod.mk.injEq, and_true]
      omega
    · rw [List.countP_append]; omega

/-- Claim C15: for `n >= 2`, the run of `stable_partition_bottomup_n` and of
`stable_partition_bsearch_n`, recorded pass by pass, has exactly the passes of
the widths `1, 2, ..., 2 ^ k`, each a power of two with `1 <= width < n`; it
leaves the loop in the first pass with `width >= n - width`, that is with
`2 * width >= n`; that last pass is a single inner step on the whole range
(`i = 0`, `limit = n > width`) whose merge step assigns `l`, `m = width` and
`r`; these are the cursors on leaving the loop, and the returned boundary is
`l + (r - m)` for them. -/
theorem C15_final_pass (p : α → Bool) (xs : List α) (h2 : 2 ≤ xs.length) :
    (∃ final lmr passes,
      bottomup_loop_log p 0 xs.length xs.length xs 1 none [] = some (final, lmr, passes)
      ∧ bottomup_loop p 0 xs.length xs.length xs 1 none = some (final, lmr)
      ∧ final_pass_shape p xs passes lmr (stable_partition_bottomup p xs))
    ∧ (∃ final lmr passes,
      bsearch_loop_log p 0 xs.length xs.length xs 1 none [] = some (final, lmr, passes)
      ∧ bsearch_loop p 0 xs.length xs.length xs 1 none = some (final, lmr)
      ∧ final_pass_shape p xs passes lmr (stable_partition_bsearch p xs)) := by
  constructor
  · obtain ⟨final, lmr, passes, h1, h3, h4⟩ :=
      block_loop_log_final p (fun ys a b => some (find_if_not p ys a b))
        (by intro A S C; simp only [find_if_not_reference]) xs h2
        (stable_partition_bottomup p xs) (bottomup_spec p xs)
    exact ⟨final, lmr, passes, by rw [bottomup_loop_log_eq]; exact h1,
      by rw [bottomup_loop_eq]; exact h3, h4⟩
  · obtain ⟨final, lmr, passes, h1, h3, h4⟩ :=
      block_loop_log_final p (partition_point p) (partition_point_reference p) xs h2
        (stable_partition_bsearch p xs) (bsearch_spec p xs)
    exact ⟨final, lmr, passes, by rw [bsearch_loop_log_eq]; exact h1,
      by rw [bsearch_loop_eq]; exact h3, h4⟩

/-- Witness of C15 on the sequence `[(0,false),(1,true),(2,false),(3,true)]`:
two passes, of widths 1 and 2; the second is the single step `i = 0`,
`limit = 4` with `(l, m, r) = (1, 2, 3)`. -/
theorem C15_final_pass_witness :
    2 ≤ example_items.length
    ∧ (bottomup_loop_log Item.value 0 example_items.length example_items.length
          example_items 1 none []).map (fun res => res.2)
        = some (some (1, 2, 3),
            [(1, [(0, 2, some (0, 1, 2)), (2, 2, some (2, 3, 4))]),
              (2, [(0, 4, some (1, 2, 3))])])
    ∧ ∃ final lmr passes,
      bottomup_loop_log Item.value 0 example_items.length example_items.length
          example_items 1 none [] = some (final, lmr, passes)
      ∧ bottomup_loop Item.value 0 example_items.length example_items.length
          example_items 1 none = some (final, lmr)
      ∧ final_pass_shape Item.value example_items passes lmr
          (stable_partition_bottomup Item.value example_items) :=
  ⟨by decide, rfl, (C15_final_pass Item.value example_items (by decide)).1⟩

end Spart
